import Mathlib

/-!
Shallow embedding of the Huffman-coding repository (src/Greedy_Alg.py and
src/Huffman.py).  Python strings are modelled as `List Char`; bitstrings are
lists of the characters '0' and '1'.  Python `dict`s are modelled as
association lists with insert-or-update semantics preserving insertion order.
Python exceptions are modelled by the `PyErr` error channel of `Except`.

The `Node` class is defined in src/Huffman.py (lines 6-44); Greedy_Alg.py
imports an identical Node class from a `Node` module that is not part of
src/, so the single model below serves both files.
-/

/-- Python exceptions that the modelled code can raise. -/
inductive PyErr : Type where
  | typeError : PyErr
  | keyError : PyErr
  | attributeError : PyErr
deriving Repr, DecidableEq

/-- A bitstring: a Python string of '0'/'1' characters, as a list. -/
abbrev Code := List Char

/-- The Node class of src/Huffman.py (lines 6-44): frequency, optional
symbol, optional left/right children (children start as None and are set
by set_left/set_right). -/
inductive Node : Type where
  | mk (frequency : Nat) (symbol : Option Char) (left right : Option Node)
deriving Repr

instance : Inhabited Node := ⟨Node.mk 0 none none none⟩

def Node.get_frequency : Node → Nat
  | .mk f _ _ _ => f

def Node.get_symbol : Node → Option Char
  | .mk _ s _ _ => s

def Node.get_left : Node → Option Node
  | .mk _ _ l _ => l

def Node.get_right : Node → Option Node
  | .mk _ _ _ r => r

/-- Python dict lookup `d[k]` / `k in d`, as an association-list find. -/
def dictGet {α β : Type} [DecidableEq α] (d : List (α × β)) (k : α) : Option β :=
  (d.find? (fun p => p.1 = k)).map (fun p => p.2)

/-- Python dict assignment `d[k] = v`: update in place if the key exists
(keeping insertion order), else append. -/
def dictSet {α β : Type} [DecidableEq α] (d : List (α × β)) (k : α) (v : β) :
    List (α × β) :=
  if d.any (fun p => p.1 = k) then
    d.map (fun p => if p.1 = k then (k, v) else p)
  else d ++ [(k, v)]

/-- The scanning loop of get_smallest (identical in Greedy_Alg.py lines
41-46 and Huffman.py lines 78-84): `for i in range(1, len(forest))`,
updating smallest_index when `forest[i] < forest[smallest_index]`, where
`Node.__lt__` (Huffman.py lines 43-44) compares frequencies strictly. -/
def smallest_index (forest : List Node) : Nat :=
  (List.range' 1 (forest.length - 1)).foldl
    (fun si i =>
      if (forest.getD i default).get_frequency <
          (forest.getD si default).get_frequency then i else si) 0

/-- get_smallest (identical in both files): pop and return the node at
smallest_index.  Returned as (popped node, remaining forest) since the
Python version mutates the list. -/
def get_smallest (forest : List Node) : Node × List Node :=
  let si := smallest_index forest
  (forest.getD si default, forest.eraseIdx si)

/-- The body of the while-loop shared by build_huffman_tree (Greedy_Alg.py
lines 56-67) and huffman (Huffman.py lines 92-98): extract the two smallest
nodes, merge them into a new internal node (symbol None, left = first
extracted, right = second), and append it to the forest. -/
def merge_step (forest : List Node) : List Node :=
  let p1 := get_smallest forest
  let p2 := get_smallest p1.2
  p2.2 ++ [Node.mk (p1.1.get_frequency + p2.1.get_frequency) none
            (some p1.1) (some p2.1)]

/-- The while-loop `while len(forest) > 1` of both tree builders. -/
def huffman_loop (forest : List Node) : List Node :=
  if h : 1 < forest.length then huffman_loop (merge_step forest) else forest
termination_by forest.length
decreasing_by
  have key : ∀ (l : List Node), 0 < l.length →
      (get_smallest l).2.length = l.length - 1 := by
    intro l hl
    have hbound : ∀ (il : List Nat) (si : Nat), (∀ i ∈ il, i < l.length) →
        si < l.length →
        (il.foldl (fun si i =>
          if (l.getD i default).get_frequency <
              (l.getD si default).get_frequency then i else si) si) < l.length := by
      intro il
      induction il with
      | nil => intro si _ h2; exact h2
      | cons a t ih =>
        intro si hm h2
        simp only [List.foldl_cons]
        by_cases hc : (l.getD a default).get_frequency <
            (l.getD si default).get_frequency
        · simp only [hc, if_true]
          exact ih a (fun i hi => hm i (List.mem_cons_of_mem a hi))
            (hm a (List.mem_cons_self a t))
        · simp only [hc, if_false]
          exact ih si (fun i hi => hm i (List.mem_cons_of_mem a hi)) h2
    have hsi : smallest_index l < l.length := by
      unfold smallest_index
      exact hbound (List.range' 1 (l.length - 1)) 0
        (fun i hi => by
          have := List.mem_range'_1.mp hi
          omega) hl
    simp only [get_smallest]
    rw [List.length_eraseIdx]
    simp [hsi]
  have e1 := key forest (by omega)
  have e2 := key (get_smallest forest).2 (by omega)
  simp only [merge_step, List.length_append, List.length_cons, List.length_nil]
  omega

/-- huffman (Huffman.py lines 88-99): run the merge loop and return the
remaining root, or None for an empty forest. -/
def huffman (forest : List Node) : Option Node :=
  if forest.length = 0 then none
  else some ((huffman_loop forest).getD 0 default)

/-- create_forest (Huffman.py lines 68-74): one leaf per index with
positive frequency, symbol chr(index). -/
def create_forest (frequencies : List Nat) : List Node :=
  frequencies.enum.filterMap (fun p =>
    if p.2 > 0 then some (Node.mk p.2 (some (Char.ofNat p.1)) none none)
    else none)

/-- initialize_forest (Greedy_Alg.py lines 30-39): one leaf per index 0-26
with positive frequency; index 26 is space, index i < 26 is chr(i + 65). -/
def initialize_forest (frequencies : List Nat) : List Node :=
  frequencies.enum.filterMap (fun p =>
    if p.2 > 0 then
      some (Node.mk p.2 (some (if p.1 == 26 then ' ' else Char.ofNat (p.1 + 65)))
        none none)
    else none)

/-- build_huffman_tree (Greedy_Alg.py lines 49-69): initialize the forest,
return None when empty, else run the merge loop and return the root. -/
def build_huffman_tree (frequencies : List Nat) : Option Node :=
  let forest := initialize_forest frequencies
  if forest.length = 0 then none
  else some ((huffman_loop forest).getD 0 default)

/-- frequency_of_symbols (Huffman.py lines 58-64): 256 counters indexed by
ASCII value. -/
def frequency_of_symbols (message : List Char) : List Nat :=
  message.foldl (fun fs c => fs.set c.toNat (fs.getD c.toNat 0 + 1))
    (List.replicate 256 0)

/-- count_frequencies (Greedy_Alg.py lines 11-26): 27 counters, A-Z at
indices 0-25 and space at index 26. -/
def count_frequencies (message : List Char) : List Nat :=
  message.foldl (fun fs c =>
    if c = ' ' then fs.set 26 (fs.getD 26 0 + 1)
    else fs.set (c.toNat - 65) (fs.getD (c.toNat - 65) 0 + 1))
    (List.replicate 27 0)

namespace Huffman

/-- The recursive traverse closure of build_encoding_table (Huffman.py
lines 107-114): at a node whose symbol is not None record the accumulated
code, else recurse left with code+"0" then right with code+"1", threading
the mutated dict.  The `node is None` guard of the Python function is the
inner Option matches here (a None child contributes nothing). -/
def traverse_node : Node → Code → List (Char × Code) → List (Char × Code)
  | .mk _ s l r, code, table =>
    match s with
    | some sym => dictSet table sym code
    | none =>
      match r with
      | some b => traverse_node b (code ++ ['1'])
          (match l with
           | some a => traverse_node a (code ++ ['0']) table
           | none => table)
      | none =>
        match l with
        | some a => traverse_node a (code ++ ['0']) table
        | none => table

/-- traverse on a possibly-None node. -/
def traverse (t : Option Node) (code : Code)
    (table : List (Char × Code)) : List (Char × Code) :=
  match t with
  | none => table
  | some n => traverse_node n code table

/-- build_encoding_table (Huffman.py lines 103-117): traverse from the root
with the empty accumulated code and an empty dict. -/
def build_encoding_table (root : Option Node) : List (Char × Code) :=
  traverse root [] []

/-- encode_with_table (Huffman.py lines 121-123): concatenate table[char]
over the message; a symbol absent from the table raises KeyError. -/
def encode_with_table (message : List Char) (table : List (Char × Code)) :
    Except PyErr Code :=
  match message with
  | [] => .ok []
  | c :: cs =>
    match dictGet table c with
    | none => .error .keyError
    | some code =>
      match encode_with_table cs table with
      | .error e => .error e
      | .ok rest => .ok (code ++ rest)

/-- build_reverse_table (Huffman.py lines 127-129): dict comprehension
swapping each (symbol, code) item in order. -/
def build_reverse_table (table : List (Char × Code)) : List (Code × Char) :=
  table.foldl (fun rt p => dictSet rt p.2 p.1) []

/-- The bit loop of decode_with_table (Huffman.py lines 133-144):
accumulate bits into current_bits; whenever current_bits is a key of the
reverse table emit its symbol and reset.  Leftover bits are dropped. -/
def decode_loop (rt : List (Code × Char)) :
    Code → Code → List Char → List Char
  | [], _, decoded => decoded
  | b :: rest, current_bits, decoded =>
    let cb := current_bits ++ [b]
    match dictGet rt cb with
    | some sym => decode_loop rt rest [] (decoded ++ [sym])
    | none => decode_loop rt rest cb decoded

/-- decode_with_table (Huffman.py lines 133-144). -/
def decode_with_table (encoded : Code) (rt : List (Code × Char)) :
    List Char :=
  decode_loop rt encoded [] []

end Huffman

namespace Greedy

/-- Index of a symbol in the 27-entry Greedy table: 26 for space, else
ord(symbol) - ord('A') (Greedy_Alg.py line 85).  Symbols reaching this
function in the modelled pipeline are always 'A'-'Z' or space, so the
Python negative-index and out-of-range behaviours are unreachable. -/
def symbol_index (c : Char) : Nat :=
  if c = ' ' then 26 else c.toNat - 65

/-- The recursive traverse closure of build_encoding_table (Greedy_Alg.py
lines 80-93), writing into the 27-entry list instead of a dict.  As above,
the `node is None` guard becomes the inner Option matches. -/
def traverse_node : Node → Code → List Code → List Code
  | .mk _ s l r, code, table =>
    match s with
    | some sym => table.set (symbol_index sym) code
    | none =>
      match r with
      | some b => traverse_node b (code ++ ['1'])
          (match l with
           | some a => traverse_node a (code ++ ['0']) table
           | none => table)
      | none =>
        match l with
        | some a => traverse_node a (code ++ ['0']) table
        | none => table

/-- traverse on a possibly-None node. -/
def traverse (t : Option Node) (code : Code) (table : List Code) :
    List Code :=
  match t with
  | none => table
  | some n => traverse_node n code table

/-- build_encoding_table (Greedy_Alg.py lines 72-96): 27 entries
initialized to the empty string, then filled by traverse. -/
def build_encoding_table (root : Option Node) : List Code :=
  traverse root [] (List.replicate 27 [])

/-- encode (Greedy_Alg.py lines 98-111).  For a space the code
encoding_table[26] is appended; for any other character the source
subscripts the function build_encoding_table instead of the table
(line 110), which raises TypeError. -/
def encode (input_string : List Char) (encoding_table : List Code) :
    Except PyErr Code :=
  match input_string with
  | [] => .ok []
  | c :: cs =>
    if c = ' ' then
      match encode cs encoding_table with
      | .error e => .error e
      | .ok rest => .ok (encoding_table.getD 26 [] ++ rest)
    else .error .typeError

/-- The bit loop of decode (Greedy_Alg.py lines 121-129), walking the tree.
Moving left/right from None raises AttributeError, as does querying the
symbol of None.  The source appends the bound method current.get_symbol
(line 128) rather than its value, so the model counts the appended method
objects instead of collecting characters. -/
def decode_loop (huffman_root : Option Node) :
    Code → Option Node → Nat → Except PyErr Nat
  | [], _, k => .ok k
  | b :: rest, current, k =>
    let moved : Except PyErr (Option Node) :=
      if b = '0' then
        match current with
        | none => .error .attributeError
        | some n => .ok n.get_left
      else if b = '1' then
        match current with
        | none => .error .attributeError
        | some n => .ok n.get_right
      else .ok current
    match moved with
    | .error e => .error e
    | .ok none => .error .attributeError
    | .ok (some n) =>
      match n.get_symbol with
      | some _ => decode_loop huffman_root rest huffman_root (k + 1)
      | none => decode_loop huffman_root rest (some n) k

/-- decode (Greedy_Alg.py lines 114-130).  The decoded list holds bound
method objects, so the final "".join raises TypeError whenever at least
one symbol was emitted; only the empty decode returns a string. -/
def decode (encoded_string : Code) (huffman_root : Option Node) :
    Except PyErr (List Char) :=
  match decode_loop huffman_root encoded_string huffman_root 0 with
  | .error e => .error e
  | .ok 0 => .ok []
  | .ok (_ + 1) => .error .typeError

end Greedy

/-! Structural functions on trees, used to state the spec's invariants.
A node whose symbol is not None is a leaf (exactly the classification the
traverse functions use); children that are None contribute nothing. -/

/-- Number of leaf (symbol-bearing) nodes of a tree. -/
def Node.countLeaves : Node → Nat
  | .mk _ s l r =>
    match s with
    | some _ => 1
    | none =>
      (match l with | some a => a.countLeaves | none => 0) +
      (match r with | some b => b.countLeaves | none => 0)

/-- Number of internal (symbol-less) nodes of a tree. -/
def Node.countInternal : Node → Nat
  | .mk _ s l r =>
    match s with
    | some _ => 0
    | none =>
      1 + (match l with | some a => a.countInternal | none => 0) +
      (match r with | some b => b.countInternal | none => 0)

/-- Sum of the frequencies stored at the leaves of a tree. -/
def Node.leafFreqSum : Node → Nat
  | .mk f s l r =>
    match s with
    | some _ => f
    | none =>
      (match l with | some a => a.leafFreqSum | none => 0) +
      (match r with | some b => b.leafFreqSum | none => 0)

/-- The symbols at the leaves of a tree, in left-to-right order. -/
def Node.leafSyms : Node → List Char
  | .mk _ s l r =>
    match s with
    | some c => [c]
    | none =>
      (match l with | some a => a.leafSyms | none => []) ++
      (match r with | some b => b.leafSyms | none => [])

/-- A tree is proper when every symbol-bearing node has no children and
every symbol-less (internal) node has exactly two children.  Every tree the
builders produce is proper. -/
def ProperTree : Node → Prop
  | .mk _ s l r =>
    match s, l, r with
    | some _, none, none => True
    | none, some a, some b => ProperTree a ∧ ProperTree b
    | _, _, _ => False

/-- Every internal node's frequency equals the sum of its children's
frequencies. -/
def FreqConsistent : Node → Prop
  | .mk f s l r =>
    match s with
    | some _ => True
    | none =>
      (match l with | some a => FreqConsistent a | none => True) ∧
      (match r with | some b => FreqConsistent b | none => True) ∧
      f = (match l with | some a => a.get_frequency | none => 0) +
          (match r with | some b => b.get_frequency | none => 0)

/-- The (symbol, accumulated code) pairs that a depth-first traversal
records: the path from the root to each leaf, '0' for a left edge and '1'
for a right edge, prefixed by `code`. -/
def leafCodes : Node → Code → List (Char × Code)
  | .mk _ s l r, code =>
    match s with
    | some sym => [(sym, code)]
    | none =>
      (match l with | some a => leafCodes a (code ++ ['0']) | none => []) ++
      (match r with | some b => leafCodes b (code ++ ['1']) | none => [])

/-! Concrete sample data used by witness and counterexample theorems. -/

/-- A leaf for symbol 'A' with frequency 1. -/
def leafA : Node := Node.mk 1 (some 'A') none none

/-- A leaf for symbol 'B' with frequency 2. -/
def leafB : Node := Node.mk 2 (some 'B') none none

/-- The tree built from frequencies A:1, B:2. -/
def treeAB : Node := Node.mk 3 none (some leafA) (some leafB)

/-- A 256-entry frequency list with 1 at index 65 ('A') and 2 at index 66
('B'), as produced for a message of one 'A' and two 'B'. -/
def freqsAB : List Nat := List.replicate 65 0 ++ [1, 2] ++ List.replicate 189 0

/-- The single leaf for symbol 'A' with frequency 4. -/
def leafA4 : Node := Node.mk 4 (some 'A') none none

/-- A 256-entry frequency list whose only positive entry is 4 at index 65
('A'), as produced for the message "AAAA". -/
def fA256 : List Nat := List.replicate 65 0 ++ [4] ++ List.replicate 190 0

/-! Properties of the minimum-extraction step. -/

theorem foldl_min_bound (forest : List Node) :
    ∀ (il : List Nat) (si : Nat), (∀ i ∈ il, i < forest.length) →
      si < forest.length →
      (il.foldl (fun si i =>
        if (forest.getD i default).get_frequency <
            (forest.getD si default).get_frequency then i else si) si) <
        forest.length := by
  intro il
  induction il with
  | nil => intro si _ h2; exact h2
  | cons a t ih =>
    intro si hm h2
    simp only [List.foldl_cons]
    by_cases hc : (forest.getD a default).get_frequency <
        (forest.getD si default).get_frequency
    · simp only [hc, if_true]
      exact ih a (fun i hi => hm i (List.mem_cons_of_mem a hi))
        (hm a (List.mem_cons_self a t))
    · simp only [hc, if_false]
      exact ih si (fun i hi => hm i (List.mem_cons_of_mem a hi)) h2

theorem smallest_index_lt (forest : List Node) (h : forest ≠ []) :
    smallest_index forest < forest.length := by
  have hlen : 0 < forest.length := List.length_pos.mpr h
  unfold smallest_index
  exact foldl_min_bound forest (List.range' 1 (forest.length - 1)) 0
    (fun i hi => by
      have := List.mem_range'_1.mp hi
      omega) hlen

theorem get_smallest_snd_length (forest : List Node) (h : forest ≠ []) :
    (get_smallest forest).2.length = forest.length - 1 := by
  simp only [get_smallest]
  rw [List.length_eraseIdx]
  simp [smallest_index_lt forest h]

theorem merge_step_length (forest : List Node) (h : 1 < forest.length) :
    (merge_step forest).length = forest.length - 1 := by
  have h1 : forest ≠ [] := by
    intro he; rw [he] at h; simp at h
  have e1 := get_smallest_snd_length forest h1
  have h2 : (get_smallest forest).2 ≠ [] := by
    intro he
    rw [he] at e1
    simp at e1
    omega
  have e2 := get_smallest_snd_length (get_smallest forest).2 h2
  simp only [merge_step, List.length_append, List.length_cons, List.length_nil]
  omega


theorem foldl_first_min (forest : List Node) :
    ∀ (m k si : Nat), si < k →
      (∀ j, j < k → (forest.getD si default).get_frequency ≤
        (forest.getD j default).get_frequency) →
      (∀ j, j < si → (forest.getD si default).get_frequency <
        (forest.getD j default).get_frequency) →
      ∀ res, res = (List.range' k m).foldl (fun si i =>
          if (forest.getD i default).get_frequency <
              (forest.getD si default).get_frequency then i else si) si →
      res < k + m ∧
      (∀ j, j < k + m → (forest.getD res default).get_frequency ≤
        (forest.getD j default).get_frequency) ∧
      (∀ j, j < res → (forest.getD res default).get_frequency <
        (forest.getD j default).get_frequency) := by
  intro m
  induction m with
  | zero =>
    intro k si h1 h2 h3 res hres
    simp only [List.range'_zero, List.foldl_nil] at hres
    subst hres
    exact ⟨by omega, fun j hj => h2 j (by omega), h3⟩
  | succ m ih =>
    intro k si h1 h2 h3 res hres
    rw [List.range'_succ] at hres
    simp only [List.foldl_cons] at hres
    by_cases hc : (forest.getD k default).get_frequency <
        (forest.getD si default).get_frequency
    · simp only [hc, if_true] at hres
      have hmain := ih (k + 1) k (by omega)
        (fun j hj => by
          rcases Nat.lt_or_ge j k with hj2 | hj2
          · exact Nat.le_of_lt (Nat.lt_of_lt_of_le hc (h2 j hj2))
          · have hjk : j = k := by omega
            subst hjk; exact Nat.le_refl _)
        (fun j hj => Nat.lt_of_lt_of_le hc (h2 j hj)) res hres
      exact ⟨by omega, fun j hj => hmain.2.1 j (by omega), hmain.2.2⟩
    · simp only [hc, if_false] at hres
      have hmain := ih (k + 1) si (by omega)
        (fun j hj => by
          rcases Nat.lt_or_ge j k with hj2 | hj2
          · exact h2 j hj2
          · have hjk : j = k := by omega
            subst hjk; exact Nat.le_of_not_lt hc)
        h3 res hres
      exact ⟨by omega, fun j hj => hmain.2.1 j (by omega), hmain.2.2⟩

/-- smallest_index returns the earliest index attaining the minimal
frequency. -/
theorem smallest_index_first_min (forest : List Node) (h : forest ≠ []) :
    smallest_index forest < forest.length ∧
    (∀ j, j < forest.length →
      (forest.getD (smallest_index forest) default).get_frequency ≤
      (forest.getD j default).get_frequency) ∧
    (∀ j, j < smallest_index forest →
      (forest.getD (smallest_index forest) default).get_frequency <
      (forest.getD j default).get_frequency) := by
  have hlen : 0 < forest.length := List.length_pos.mpr h
  have := foldl_first_min forest (forest.length - 1) 1 0 (by omega)
    (fun j hj => by
      have : j = 0 := by omega
      subst this; exact Nat.le_refl _)
    (fun j hj => by omega)
    (smallest_index forest) (by unfold smallest_index; rfl)
  exact ⟨by omega, fun j hj => this.2.1 j (by omega), this.2.2⟩

/-! Permutation structure of the merge loop. -/

theorem perm_getD_cons_eraseIdx {α : Type} [Inhabited α] :
    ∀ (l : List α) (i : Nat), i < l.length →
      List.Perm l (l.getD i default :: l.eraseIdx i) := by
  intro l
  induction l with
  | nil => intro i hi; simp at hi
  | cons a t ih =>
    intro i hi
    cases i with
    | zero => simp [List.eraseIdx]
    | succ i =>
      simp only [List.getD_cons_succ, List.eraseIdx_cons_succ]
      have ht : i < t.length := by
        simp only [List.length_cons] at hi
        omega
      exact ((ih i ht).cons a).trans (List.Perm.swap _ _ _)

theorem get_smallest_perm (forest : List Node) (h : forest ≠ []) :
    List.Perm forest ((get_smallest forest).1 :: (get_smallest forest).2) := by
  simp only [get_smallest]
  exact perm_getD_cons_eraseIdx forest (smallest_index forest)
    (smallest_index_lt forest h)

theorem merge_step_decomp (forest : List Node) (h : 1 < forest.length) :
    ∃ s1 s2 rest, List.Perm forest (s1 :: s2 :: rest) ∧
      merge_step forest = rest ++
        [Node.mk (s1.get_frequency + s2.get_frequency) none (some s1) (some s2)] := by
  have h1 : forest ≠ [] := by
    intro he; rw [he] at h; simp at h
  have e1 := get_smallest_snd_length forest h1
  have h2 : (get_smallest forest).2 ≠ [] := by
    intro he; rw [he] at e1; simp at e1; omega
  refine ⟨(get_smallest forest).1, (get_smallest (get_smallest forest).2).1,
    (get_smallest (get_smallest forest).2).2, ?_, rfl⟩
  exact (get_smallest_perm forest h1).trans
    ((get_smallest_perm (get_smallest forest).2 h2).cons _)

/-- Master invariant for the merge loop: any predicate on forests preserved
by merge_step holds of the loop's result. -/
theorem huffman_loop_invariant (Q : List Node → Prop)
    (hstep : ∀ f, 1 < f.length → Q f → Q (merge_step f)) :
    ∀ f, Q f → Q (huffman_loop f) := by
  have main : ∀ (n : Nat) (f : List Node), f.length = n → Q f →
      Q (huffman_loop f) := by
    intro n
    induction n using Nat.strong_induction_on with
    | _ n ih =>
      intro f hlen hQ
      unfold huffman_loop
      by_cases hc : 1 < f.length
      · simp only [hc, dif_pos]
        exact ih (merge_step f).length
          (by rw [merge_step_length f hc]; omega)
          (merge_step f) rfl (hstep f hc hQ)
      · simp only [hc, dif_neg, not_false_iff]
        exact hQ
  intro f
  exact main f.length f rfl

theorem huffman_loop_length (f : List Node) (h : f ≠ []) :
    (huffman_loop f).length = 1 := by
  have main : ∀ (n : Nat) (f : List Node), f.length = n → f ≠ [] →
      (huffman_loop f).length = 1 := by
    intro n
    induction n using Nat.strong_induction_on with
    | _ n ih =>
      intro f hlen hne
      unfold huffman_loop
      by_cases hc : 1 < f.length
      · simp only [hc, dif_pos]
        have hml := merge_step_length f hc
        exact ih (merge_step f).length (by omega) (merge_step f) rfl
          (by
            intro he
            rw [he] at hml
            simp at hml
            omega)
      · simp only [hc, dif_neg, not_false_iff]
        have : 0 < f.length := List.length_pos.mpr hne
        omega
  exact main f.length f rfl h

theorem huffman_loop_single (f : List Node) (h : f ≠ []) :
    ∃ r, huffman_loop f = [r] := by
  have := huffman_loop_length f h
  match he : huffman_loop f with
  | [] => rw [he] at this; simp at this
  | [r] => exact ⟨r, rfl⟩
  | r :: s :: t => rw [he] at this; simp at this

theorem huffman_some (f : List Node) (h : f ≠ []) :
    ∃ r, huffman f = some r ∧ huffman_loop f = [r] := by
  obtain ⟨r, hr⟩ := huffman_loop_single f h
  refine ⟨r, ?_, hr⟩
  simp only [huffman]
  have hlen : ¬ f.length = 0 := by
    have := List.length_pos.mpr h
    omega
  rw [if_neg hlen, hr]
  rfl

/-- Pointwise invariant: a node predicate preserved by merging holds of
every node that the loop returns. -/
theorem huffman_loop_all (P : Node → Prop)
    (hmerge : ∀ a b, P a → P b →
      P (Node.mk (a.get_frequency + b.get_frequency) none (some a) (some b)))
    (f : List Node) (hf : ∀ n ∈ f, P n) :
    ∀ n ∈ huffman_loop f, P n := by
  refine huffman_loop_invariant (fun l => ∀ n ∈ l, P n) ?_ f hf
  intro g hg hall
  obtain ⟨s1, s2, rest, hperm, heq⟩ := merge_step_decomp g hg
  rw [heq]
  intro n hn
  rcases List.mem_append.mp hn with hn | hn
  · exact hall n (hperm.mem_iff.mpr (by simp [hn]))
  · have hn : n = Node.mk (s1.get_frequency + s2.get_frequency) none
        (some s1) (some s2) := by simpa using hn
    subst hn
    exact hmerge s1 s2
      (hall s1 (hperm.mem_iff.mpr (by simp)))
      (hall s2 (hperm.mem_iff.mpr (by simp)))

/-- Counting invariant: if merging adds `d` to the total of `g`, the loop
preserves the total of `g` plus `d` per forest element. -/
theorem huffman_loop_count (g : Node → Nat) (d : Nat)
    (hmerge : ∀ a b,
      g (Node.mk (a.get_frequency + b.get_frequency) none (some a) (some b)) =
        g a + g b + d)
    (f : List Node) :
    ((huffman_loop f).map g).sum + d * (huffman_loop f).length =
      (f.map g).sum + d * f.length := by
  refine huffman_loop_invariant
    (fun l => (l.map g).sum + d * l.length = (f.map g).sum + d * f.length)
    ?_ f rfl
  intro l hl hQ
  obtain ⟨s1, s2, rest, hperm, heq⟩ := merge_step_decomp l hl
  have hsum : (l.map g).sum = g s1 + g s2 + (rest.map g).sum := by
    have := (hperm.map g).sum_eq
    simp only [List.map_cons, List.sum_cons] at this
    omega
  have hlen : l.length = rest.length + 2 := by
    have := hperm.length_eq
    simp only [List.length_cons] at this
    omega
  rw [heq]
  simp only [List.map_append, List.sum_append, List.length_append,
    List.map_cons, List.map_nil, List.sum_cons, List.sum_nil,
    List.length_cons, List.length_nil, hmerge]
  rw [← hQ, hsum, hlen]
  ring

/-- Multiset invariant: a node-to-multiset function additive over merges is
globally preserved by the loop. -/
theorem huffman_loop_multiset (g : Node → Multiset Char)
    (hmerge : ∀ a b,
      g (Node.mk (a.get_frequency + b.get_frequency) none (some a) (some b)) =
        g a + g b)
    (f : List Node) :
    ((huffman_loop f).map g).sum = (f.map g).sum := by
  refine huffman_loop_invariant
    (fun l => (l.map g).sum = (f.map g).sum) ?_ f rfl
  intro l hl hQ
  obtain ⟨s1, s2, rest, hperm, heq⟩ := merge_step_decomp l hl
  have hsum : (l.map g).sum = g s1 + g s2 + (rest.map g).sum := by
    have := (hperm.map g).sum_eq
    simp only [List.map_cons, List.sum_cons] at this
    rw [this]
    abel
  rw [heq] at *
  simp only [List.map_append, List.sum_append, List.map_cons, List.map_nil,
    List.sum_cons, List.sum_nil, hmerge]
  rw [← hQ, hsum]
  abel

/-! Structural properties of built trees. -/

theorem create_forest_leaves (freqs : List Nat) :
    ∀ n ∈ create_forest freqs, ∃ fr c, n = Node.mk fr (some c) none none := by
  intro n hn
  obtain ⟨p, _, hp⟩ := List.mem_filterMap.mp hn
  by_cases hc : p.2 > 0
  · rw [if_pos hc] at hp
    exact ⟨p.2, Char.ofNat p.1, (Option.some.injEq _ _ ▸ hp).symm⟩
  · rw [if_neg hc] at hp
    exact absurd hp (by simp)

theorem initialize_forest_leaves (freqs : List Nat) :
    ∀ n ∈ initialize_forest freqs, ∃ fr c, n = Node.mk fr (some c) none none := by
  intro n hn
  obtain ⟨p, _, hp⟩ := List.mem_filterMap.mp hn
  by_cases hc : p.2 > 0
  · rw [if_pos hc] at hp
    exact ⟨p.2, _, (Option.some.injEq _ _ ▸ hp).symm⟩
  · rw [if_neg hc] at hp
    exact absurd hp (by simp)

theorem enumFrom_filterMap_length {β : Type} (g : Nat × Nat → β)
    (freqs : List Nat) : ∀ (k : Nat),
      ((List.enumFrom k freqs).filterMap (fun p =>
        if p.2 > 0 then some (g p) else none)).length =
      freqs.countP (fun x => decide (0 < x)) := by
  induction freqs with
  | nil => intro k; rfl
  | cons a t ih =>
    intro k
    simp only [List.enumFrom_cons, List.filterMap_cons, List.countP_cons]
    by_cases hc : a > 0
    · rw [if_pos hc]
      simp only [List.length_cons, ih (k + 1)]
      simp [hc]
    · rw [if_neg hc]
      rw [ih (k + 1)]
      simp [hc, Nat.not_lt.mp hc]

theorem create_forest_length (freqs : List Nat) :
    (create_forest freqs).length = freqs.countP (fun x => decide (0 < x)) := by
  simp only [create_forest, List.enum]
  exact enumFrom_filterMap_length _ freqs 0

theorem initialize_forest_length (freqs : List Nat) :
    (initialize_forest freqs).length =
      freqs.countP (fun x => decide (0 < x)) := by
  simp only [initialize_forest, List.enum]
  exact enumFrom_filterMap_length _ freqs 0

theorem sum_map_one (l : List Node) :
    (l.map (fun _ => (1 : Nat))).sum = l.length := by
  induction l with
  | nil => rfl
  | cons a t ih =>
    simp [ih]
    omega

theorem sum_map_zero (l : List Node) :
    (l.map (fun _ => (0 : Nat))).sum = 0 := by
  induction l with
  | nil => rfl
  | cons a t ih => simp [ih]

/-- All structural facts about the tree built from a forest of leaves. -/
theorem tree_from_leaf_forest (f : List Node)
    (hleaves : ∀ n ∈ f, ∃ fr c, n = Node.mk fr (some c) none none)
    (hne : f ≠ []) :
    ∃ r, huffman f = some r ∧ ProperTree r ∧ FreqConsistent r ∧
      r.get_frequency = r.leafFreqSum ∧
      r.countLeaves = f.length ∧ r.countInternal = f.length - 1 ∧
      (r.leafSyms : Multiset Char) =
        (f.map (fun n => (n.leafSyms : Multiset Char))).sum := by
  obtain ⟨r, hsome, hloop⟩ := huffman_some f hne
  refine ⟨r, hsome, ?_⟩
  have hP : ∀ n ∈ huffman_loop f,
      ProperTree n ∧ FreqConsistent n ∧
        n.get_frequency = n.leafFreqSum := by
    refine huffman_loop_all _ ?_ f ?_
    · intro a b ⟨hpa, hca, hfa⟩ ⟨hpb, hcb, hfb⟩
      refine ⟨⟨hpa, hpb⟩, ⟨hca, hcb, rfl⟩, ?_⟩
      show a.get_frequency + b.get_frequency = a.leafFreqSum + b.leafFreqSum
      rw [hfa, hfb]
    · intro n hn
      obtain ⟨fr, c, hc⟩ := hleaves n hn
      subst hc
      exact ⟨trivial, trivial, rfl⟩
  have hPr := hP r (by rw [hloop]; simp)
  have hleafcount : r.countLeaves = f.length := by
    have := huffman_loop_count Node.countLeaves 0
      (fun a b => by simp [Node.countLeaves]) f
    rw [hloop] at this
    simp only [List.map_cons, List.map_nil, List.sum_cons, List.sum_nil,
      Nat.mul_zero, Nat.zero_mul, Nat.add_zero] at this
    have hmap : f.map Node.countLeaves = f.map (fun _ => 1) := by
      apply List.map_congr_left
      intro n hn
      obtain ⟨fr, c, hc⟩ := hleaves n hn
      subst hc
      rfl
    rw [hmap, sum_map_one] at this
    omega
  have hinternal : r.countInternal = f.length - 1 := by
    have := huffman_loop_count Node.countInternal 1
      (fun a b => by simp [Node.countInternal]; omega) f
    rw [hloop] at this
    simp only [List.map_cons, List.map_nil, List.sum_cons, List.sum_nil,
      List.length_cons, List.length_nil] at this
    have hmap : f.map Node.countInternal = f.map (fun _ => 0) := by
      apply List.map_congr_left
      intro n hn
      obtain ⟨fr, c, hc⟩ := hleaves n hn
      subst hc
      rfl
    rw [hmap, sum_map_zero] at this
    have hlen : 0 < f.length := List.length_pos.mpr hne
    omega
  have hsyms : (r.leafSyms : Multiset Char) =
      (f.map (fun n => (n.leafSyms : Multiset Char))).sum := by
    have := huffman_loop_multiset (fun n => (n.leafSyms : Multiset Char))
      (fun a b => by
        simp only [Node.leafSyms]
        rw [← Multiset.coe_add]) f
    rw [hloop] at this
    simpa using this
  exact ⟨hPr.1, hPr.2.1, hPr.2.2, hleafcount, hinternal, hsyms⟩

/-! Evaluation of the builders on the sample data. -/

theorem build_huffman_tree_eq_huffman (freqs : List Nat) :
    build_huffman_tree freqs = huffman (initialize_forest freqs) := rfl

theorem huffman_loop_AB : huffman_loop [leafA, leafB] = [treeAB] := by
  rw [huffman_loop]
  norm_num
  rw [show merge_step [leafA, leafB] = [treeAB] from rfl]
  rw [huffman_loop]
  norm_num

theorem build_huffman_tree_AB : build_huffman_tree [1, 2] = some treeAB := by
  rw [build_huffman_tree_eq_huffman]
  rw [show initialize_forest [1, 2] = [leafA, leafB] from rfl]
  simp only [huffman]
  norm_num
  rw [huffman_loop_AB]
  rfl

set_option maxRecDepth 4000 in
theorem huffman_create_AB : huffman (create_forest freqsAB) = some treeAB := by
  rw [show create_forest freqsAB = [leafA, leafB] from rfl]
  simp only [huffman]
  norm_num
  rw [huffman_loop_AB]
  rfl

/-- C10: get_smallest (identical in both files) removes and returns the
node at the lowest index among those of minimal frequency (the strict <
of Node.__lt__ keeps the earliest minimum), shrinking the forest by exactly
one element.  Tree construction is a pure Lean function of the frequency
list, so determinism with ties broken by position follows by construction. -/
theorem claim_C10_get_smallest_earliest_min (forest : List Node)
    (h : forest ≠ []) :
    ∃ si, si < forest.length ∧
      get_smallest forest = (forest.getD si default, forest.eraseIdx si) ∧
      (get_smallest forest).2.length = forest.length - 1 ∧
      (∀ j, j < forest.length →
        ((get_smallest forest).1).get_frequency ≤
          (forest.getD j default).get_frequency) ∧
      (∀ j, j < si →
        ((get_smallest forest).1).get_frequency <
          (forest.getD j default).get_frequency) := by
  obtain ⟨hlt, hmin, hfirst⟩ := smallest_index_first_min forest h
  exact ⟨smallest_index forest, hlt, rfl,
    get_smallest_snd_length forest h, hmin, hfirst⟩

/-- Witness for C10 at the concrete forest [B:2, A:1]. -/
theorem claim_C10_witness :
    ∃ si, si < ([leafB, leafA] : List Node).length ∧
      get_smallest [leafB, leafA] =
        (([leafB, leafA] : List Node).getD si default,
          ([leafB, leafA] : List Node).eraseIdx si) ∧
      (get_smallest [leafB, leafA]).2.length =
        ([leafB, leafA] : List Node).length - 1 ∧
      (∀ j, j < ([leafB, leafA] : List Node).length →
        ((get_smallest [leafB, leafA]).1).get_frequency ≤
          (([leafB, leafA] : List Node).getD j default).get_frequency) ∧
      (∀ j, j < si →
        ((get_smallest [leafB, leafA]).1).get_frequency <
          (([leafB, leafA] : List Node).getD j default).get_frequency) :=
  claim_C10_get_smallest_earliest_min [leafB, leafA] (List.cons_ne_nil _ _)

/-- C9: a tree built by build_huffman_tree or huffman from a frequency list
with N >= 1 positive entries has exactly N leaves and N - 1 internal nodes,
every internal node has exactly two children (ProperTree), and N = 0 yields
the explicit no-tree result None. -/
theorem claim_C9_tree_shape (freqs : List Nat) :
    (freqs.countP (fun x => decide (0 < x)) = 0 →
      build_huffman_tree freqs = none ∧ huffman (create_forest freqs) = none) ∧
    (1 ≤ freqs.countP (fun x => decide (0 < x)) →
      (∃ t, build_huffman_tree freqs = some t ∧ ProperTree t ∧
        t.countLeaves = freqs.countP (fun x => decide (0 < x)) ∧
        t.countInternal = freqs.countP (fun x => decide (0 < x)) - 1) ∧
      (∃ t, huffman (create_forest freqs) = some t ∧ ProperTree t ∧
        t.countLeaves = freqs.countP (fun x => decide (0 < x)) ∧
        t.countInternal = freqs.countP (fun x => decide (0 < x)) - 1)) := by
  constructor
  · intro h0
    constructor
    · rw [build_huffman_tree_eq_huffman]
      simp only [huffman]
      rw [if_pos]
      rw [initialize_forest_length freqs, h0]
    · simp only [huffman]
      rw [if_pos]
      rw [create_forest_length freqs, h0]
  · intro h1
    have hi : initialize_forest freqs ≠ [] := by
      intro he
      have := initialize_forest_length freqs
      rw [he] at this
      simp only [List.length_nil] at this
      omega
    have hc : create_forest freqs ≠ [] := by
      intro he
      have := create_forest_length freqs
      rw [he] at this
      simp only [List.length_nil] at this
      omega
    constructor
    · obtain ⟨r, hsome, hp, _, _, hl, hn, _⟩ :=
        tree_from_leaf_forest (initialize_forest freqs)
          (initialize_forest_leaves freqs) hi
      refine ⟨r, ?_, hp, ?_, ?_⟩
      · rw [build_huffman_tree_eq_huffman, hsome]
      · rw [hl, initialize_forest_length]
      · rw [hn, initialize_forest_length]
    · obtain ⟨r, hsome, hp, _, _, hl, hn, _⟩ :=
        tree_from_leaf_forest (create_forest freqs)
          (create_forest_leaves freqs) hc
      refine ⟨r, hsome, hp, ?_, ?_⟩
      · rw [hl, create_forest_length]
      · rw [hn, create_forest_length]

/-- Witness for C9: the empty case at [0] and the positive case at [1, 2]. -/
theorem claim_C9_witness :
    (build_huffman_tree [0] = none ∧ huffman (create_forest [0]) = none) ∧
    ((∃ t, build_huffman_tree [1, 2] = some t ∧ ProperTree t ∧
        t.countLeaves = ([1, 2] : List Nat).countP (fun x => decide (0 < x)) ∧
        t.countInternal =
          ([1, 2] : List Nat).countP (fun x => decide (0 < x)) - 1) ∧
      (∃ t, huffman (create_forest [1, 2]) = some t ∧ ProperTree t ∧
        t.countLeaves = ([1, 2] : List Nat).countP (fun x => decide (0 < x)) ∧
        t.countInternal =
          ([1, 2] : List Nat).countP (fun x => decide (0 < x)) - 1)) :=
  ⟨(claim_C9_tree_shape [0]).1 (by decide),
    (claim_C9_tree_shape [1, 2]).2 (by decide)⟩

/-- C8: for every tree built by build_huffman_tree or huffman, the root
frequency equals the sum of all leaf frequencies, and every internal node's
frequency equals the sum of its two children's frequencies
(FreqConsistent); the loop invariant huffman_loop_all shows this is
preserved at every merge step of construction. -/
theorem claim_C8_frequency_conservation (freqs : List Nat) (t : Node) :
    (build_huffman_tree freqs = some t →
      t.get_frequency = t.leafFreqSum ∧ FreqConsistent t) ∧
    (huffman (create_forest freqs) = some t →
      t.get_frequency = t.leafFreqSum ∧ FreqConsistent t) := by
  constructor
  · intro hb
    have hne : initialize_forest freqs ≠ [] := by
      intro he
      rw [build_huffman_tree_eq_huffman] at hb
      simp only [huffman, he, List.length_nil, if_pos] at hb
      exact Option.noConfusion hb
    obtain ⟨r, hsome, _, hfc, hfs, _, _, _⟩ :=
      tree_from_leaf_forest (initialize_forest freqs)
        (initialize_forest_leaves freqs) hne
    rw [build_huffman_tree_eq_huffman, hsome] at hb
    have : r = t := by injection hb
    subst this
    exact ⟨hfs, hfc⟩
  · intro hb
    have hne : create_forest freqs ≠ [] := by
      intro he
      simp only [huffman, he, List.length_nil, if_pos] at hb
      exact Option.noConfusion hb
    obtain ⟨r, hsome, _, hfc, hfs, _, _, _⟩ :=
      tree_from_leaf_forest (create_forest freqs)
        (create_forest_leaves freqs) hne
    rw [hsome] at hb
    have : r = t := by injection hb
    subst this
    exact ⟨hfs, hfc⟩

/-- Witness for C8 at frequencies A:1, B:2 for both builders. -/
theorem claim_C8_witness :
    (treeAB.get_frequency = treeAB.leafFreqSum ∧ FreqConsistent treeAB) ∧
    (treeAB.get_frequency = treeAB.leafFreqSum ∧ FreqConsistent treeAB) :=
  ⟨(claim_C8_frequency_conservation [1, 2] treeAB).1 build_huffman_tree_AB,
    (claim_C8_frequency_conservation freqsAB treeAB).2 huffman_create_AB⟩

/-! Codes recorded by the depth-first traversals. -/

theorem leafCodes_map_fst : ∀ (t : Node) (code : Code),
    (leafCodes t code).map Prod.fst = t.leafSyms
  | .mk _ (some _) _ _, _ => rfl
  | .mk f none none none, code => rfl
  | .mk f none none (some b), code =>
    leafCodes_map_fst b (code ++ ['1'])
  | .mk f none (some a) none, code => by
    show ((leafCodes a (code ++ ['0']) ++ []).map Prod.fst : List Char) =
      a.leafSyms ++ []
    simp only [List.append_nil]
    exact leafCodes_map_fst a (code ++ ['0'])
  | .mk f none (some a) (some b), code => by
    show ((leafCodes a (code ++ ['0']) ++ leafCodes b (code ++ ['1'])).map
        Prod.fst : List Char) = a.leafSyms ++ b.leafSyms
    rw [List.map_append, leafCodes_map_fst a (code ++ ['0']),
      leafCodes_map_fst b (code ++ ['1'])]

theorem leafCodes_extend : ∀ (t : Node) (code : Code) (p : Char × Code),
    p ∈ leafCodes t code → ∃ suffix, p.2 = code ++ suffix
  | .mk _ (some c) _ _, code, p => fun hp => by
    simp only [leafCodes, List.mem_singleton] at hp
    subst hp
    exact ⟨[], (List.append_nil code).symm⟩
  | .mk f none none none, code, p => fun hp => by
    exact absurd hp (by simp [leafCodes])
  | .mk f none none (some b), code, p => fun hp => by
    obtain ⟨s, hs⟩ := leafCodes_extend b (code ++ ['1']) p hp
    exact ⟨'1' :: s, by rw [hs, List.append_assoc]; rfl⟩
  | .mk f none (some a) none, code, p => fun hp => by
    rw [show leafCodes (Node.mk f none (some a) none) code =
      leafCodes a (code ++ ['0']) ++ [] from rfl, List.append_nil] at hp
    obtain ⟨s, hs⟩ := leafCodes_extend a (code ++ ['0']) p hp
    exact ⟨'0' :: s, by rw [hs, List.append_assoc]; rfl⟩
  | .mk f none (some a) (some b), code, p => fun hp => by
    rw [show leafCodes (Node.mk f none (some a) (some b)) code =
      leafCodes a (code ++ ['0']) ++ leafCodes b (code ++ ['1']) from rfl] at hp
    rcases List.mem_append.mp hp with hp | hp
    · obtain ⟨s, hs⟩ := leafCodes_extend a (code ++ ['0']) p hp
      exact ⟨'0' :: s, by rw [hs, List.append_assoc]; rfl⟩
    · obtain ⟨s, hs⟩ := leafCodes_extend b (code ++ ['1']) p hp
      exact ⟨'1' :: s, by rw [hs, List.append_assoc]; rfl⟩

theorem append_bit_incomparable (code u v : Code) (x y : Char) (hxy : x ≠ y) :
    ¬ ((code ++ x :: u) <+: (code ++ y :: v)) := by
  intro hpre
  rw [List.prefix_append_right_inj, List.cons_prefix_cons] at hpre
  exact hxy hpre.1

theorem leafCodes_pairwise : ∀ (t : Node) (code : Code),
    List.Pairwise (fun p q : Char × Code =>
      ¬ (p.2 <+: q.2) ∧ ¬ (q.2 <+: p.2)) (leafCodes t code)
  | .mk _ (some c) _ _, code => by
    simp [leafCodes]
  | .mk f none none none, code => by
    simp [leafCodes]
  | .mk f none none (some b), code =>
    leafCodes_pairwise b (code ++ ['1'])
  | .mk f none (some a) none, code => by
    rw [show leafCodes (Node.mk f none (some a) none) code =
      leafCodes a (code ++ ['0']) ++ [] from rfl, List.append_nil]
    exact leafCodes_pairwise a (code ++ ['0'])
  | .mk f none (some a) (some b), code => by
    rw [show leafCodes (Node.mk f none (some a) (some b)) code =
      leafCodes a (code ++ ['0']) ++ leafCodes b (code ++ ['1']) from rfl]
    rw [List.pairwise_append]
    refine ⟨leafCodes_pairwise a (code ++ ['0']),
      leafCodes_pairwise b (code ++ ['1']), ?_⟩
    intro p hp q hq
    obtain ⟨s, hs⟩ := leafCodes_extend a (code ++ ['0']) p hp
    obtain ⟨w, hw⟩ := leafCodes_extend b (code ++ ['1']) q hq
    have hps : p.2 = code ++ '0' :: s := by rw [hs, List.append_assoc]; rfl
    have hqw : q.2 = code ++ '1' :: w := by rw [hw, List.append_assoc]; rfl
    rw [hps, hqw]
    exact ⟨append_bit_incomparable code s w '0' '1' (by decide),
      append_bit_incomparable code w s '1' '0' (by decide)⟩

theorem leafCodes_ne_nil_of_internal (f : Nat) (l r : Option Node) :
    ∀ p ∈ leafCodes (Node.mk f none l r) [], p.2 ≠ [] := by
  intro p hp
  cases l with
  | none =>
    cases r with
    | none => exact absurd hp (by simp [leafCodes])
    | some b =>
      have hm : p ∈ leafCodes b ['1'] := hp
      obtain ⟨s, hs⟩ := leafCodes_extend b ['1'] p hm
      rw [hs]
      simp
  | some a =>
    cases r with
    | none =>
      have hm : p ∈ leafCodes a ['0'] ++ [] := hp
      rw [List.append_nil] at hm
      obtain ⟨s, hs⟩ := leafCodes_extend a ['0'] p hm
      rw [hs]
      simp
    | some b =>
      have hm : p ∈ leafCodes a ['0'] ++ leafCodes b ['1'] := hp
      rcases List.mem_append.mp hm with hm2 | hm2
      · obtain ⟨s, hs⟩ := leafCodes_extend a ['0'] p hm2
        rw [hs]
        simp
      · obtain ⟨s, hs⟩ := leafCodes_extend b ['1'] p hm2
        rw [hs]
        simp

theorem internal_of_two_leaves (t : Node) (hp : ProperTree t)
    (h2 : 2 ≤ t.countLeaves) :
    ∃ f a b, t = Node.mk f none (some a) (some b) := by
  match t with
  | .mk f (some c) l r =>
    exact absurd h2 (by simp [Node.countLeaves])
  | .mk f none l r =>
    match l, r with
    | none, none => exact absurd hp (by simp [ProperTree])
    | none, some b => exact absurd hp (by simp [ProperTree])
    | some a, none => exact absurd hp (by simp [ProperTree])
    | some a, some b => exact ⟨f, a, b, rfl⟩

/-! The traversals in terms of leafCodes. -/


theorem dictSet_append {α β : Type} [DecidableEq α] (d : List (α × β))
    (k : α) (v : β) (h : ∀ p ∈ d, p.1 ≠ k) :
    dictSet d k v = d ++ [(k, v)] := by
  unfold dictSet
  rw [if_neg]
  simp only [List.any_eq_true, decide_eq_true_eq, not_exists]
  intro p hp
  exact h p hp.1 hp.2

theorem traverse_node_eq_leafCodes : ∀ (t : Node) (code : Code)
    (table : List (Char × Code)),
    (table.map Prod.fst ++ t.leafSyms).Nodup →
    Huffman.traverse_node t code table = table ++ leafCodes t code
  | .mk f (some c) l r, code, table => fun h => by
    have hc : ∀ p ∈ table, p.1 ≠ c := by
      intro p hmem heq
      rw [show Node.leafSyms (Node.mk f (some c) l r) = [c] from rfl,
        List.nodup_append] at h
      exact h.2.2 (List.mem_map_of_mem Prod.fst hmem)
        (by rw [heq]; exact List.mem_singleton_self c)
    show dictSet table c code = table ++ [(c, code)]
    exact dictSet_append table c code hc
  | .mk f none none none, code, table => fun _ => by
    show table = table ++ leafCodes (Node.mk f none none none) code
    rw [show leafCodes (Node.mk f none none none) code =
      ([] : List (Char × Code)) from rfl, List.append_nil]
  | .mk f none none (some b), code, table => fun h => by
    show Huffman.traverse_node b (code ++ ['1']) table =
      table ++ leafCodes (Node.mk f none none (some b)) code
    exact traverse_node_eq_leafCodes b (code ++ ['1']) table h
  | .mk f none (some a) none, code, table => fun h => by
    show Huffman.traverse_node a (code ++ ['0']) table =
      table ++ leafCodes (Node.mk f none (some a) none) code
    rw [show Node.leafSyms (Node.mk f none (some a) none) =
      a.leafSyms ++ [] from rfl, List.append_nil] at h
    rw [show leafCodes (Node.mk f none (some a) none) code =
      leafCodes a (code ++ ['0']) ++ [] from rfl, List.append_nil]
    exact traverse_node_eq_leafCodes a (code ++ ['0']) table h
  | .mk f none (some a) (some b), code, table => fun h => by
    show Huffman.traverse_node b (code ++ ['1'])
        (Huffman.traverse_node a (code ++ ['0']) table) =
      table ++ leafCodes (Node.mk f none (some a) (some b)) code
    rw [show Node.leafSyms (Node.mk f none (some a) (some b)) =
      a.leafSyms ++ b.leafSyms from rfl] at h
    have ha : (table.map Prod.fst ++ a.leafSyms).Nodup := by
      refine List.Nodup.sublist ?_ h
      rw [← List.append_assoc]
      exact List.sublist_append_left _ _
    rw [traverse_node_eq_leafCodes a (code ++ ['0']) table ha]
    have hb : ((table ++ leafCodes a (code ++ ['0'])).map Prod.fst ++
        b.leafSyms).Nodup := by
      rw [List.map_append, leafCodes_map_fst, List.append_assoc]
      exact h
    rw [traverse_node_eq_leafCodes b (code ++ ['1']) _ hb]
    rw [show leafCodes (Node.mk f none (some a) (some b)) code =
      leafCodes a (code ++ ['0']) ++ leafCodes b (code ++ ['1']) from rfl,
      List.append_assoc]

theorem build_encoding_table_eq_leafCodes (t : Node)
    (h : t.leafSyms.Nodup) :
    Huffman.build_encoding_table (some t) = leafCodes t [] := by
  show Huffman.traverse_node t [] [] = leafCodes t []
  rw [traverse_node_eq_leafCodes t [] [] (by simpa using h)]
  rfl

theorem traverseG_eq_foldl : ∀ (t : Node) (code : Code) (table : List Code),
    Greedy.traverse_node t code table =
      (leafCodes t code).foldl
        (fun tb p => tb.set (Greedy.symbol_index p.1) p.2) table
  | .mk f (some c) l r, code, table => rfl
  | .mk f none none none, code, table => rfl
  | .mk f none none (some b), code, table =>
    traverseG_eq_foldl b (code ++ ['1']) table
  | .mk f none (some a) none, code, table => by
    show Greedy.traverse_node a (code ++ ['0']) table =
      (leafCodes (Node.mk f none (some a) none) code).foldl
        (fun tb p => tb.set (Greedy.symbol_index p.1) p.2) table
    rw [show leafCodes (Node.mk f none (some a) none) code =
      leafCodes a (code ++ ['0']) ++ [] from rfl, List.append_nil]
    exact traverseG_eq_foldl a (code ++ ['0']) table
  | .mk f none (some a) (some b), code, table => by
    show Greedy.traverse_node b (code ++ ['1'])
        (Greedy.traverse_node a (code ++ ['0']) table) =
      (leafCodes (Node.mk f none (some a) (some b)) code).foldl
        (fun tb p => tb.set (Greedy.symbol_index p.1) p.2) table
    rw [show leafCodes (Node.mk f none (some a) (some b)) code =
      leafCodes a (code ++ ['0']) ++ leafCodes b (code ++ ['1']) from rfl,
      List.foldl_append]
    rw [traverseG_eq_foldl a (code ++ ['0']) table]
    exact traverseG_eq_foldl b (code ++ ['1']) _

/-! Distinctness of the leaf symbols of built trees. -/

theorem char_toNat_ofNat (n : Nat) (h : n < 55296) :
    (Char.ofNat n).toNat = n := by
  unfold Char.ofNat
  rw [dif_pos (Or.inl h)]
  rfl

theorem multiset_sum_flat : ∀ (f : List Node),
    ((f.map (fun n => (n.leafSyms : Multiset Char))).sum : Multiset Char) =
      ((f.flatMap Node.leafSyms : List Char) : Multiset Char) := by
  intro f
  induction f with
  | nil => rfl
  | cons a t ih =>
    simp only [List.map_cons, List.sum_cons, List.flatMap_cons, ih,
      ← Multiset.coe_add]

theorem enumFrom_filterMap_flatMap (sym : Nat → Char) (freqs : List Nat) :
    ∀ (k : Nat),
      (((List.enumFrom k freqs).filterMap (fun p =>
        if p.2 > 0 then some (Node.mk p.2 (some (sym p.1)) none none)
        else none)).flatMap Node.leafSyms) =
      ((List.enumFrom k freqs).filter (fun p => decide (p.2 > 0))).map
        (fun p => sym p.1) := by
  induction freqs with
  | nil => intro k; rfl
  | cons a t ih =>
    intro k
    simp only [List.enumFrom_cons, List.filterMap_cons, List.filter_cons]
    by_cases hc : a > 0
    · rw [if_pos hc, if_pos (by simpa using hc)]
      simp only [List.flatMap_cons, List.map_cons]
      rw [ih (k + 1)]
      rfl
    · rw [if_neg hc, if_neg (by simpa using hc)]
      exact ih (k + 1)

theorem forest_syms_nodup (sym : Nat → Char) (freqs : List Nat)
    (hinj : ∀ i, i < freqs.length → ∀ j, j < freqs.length →
      sym i = sym j → i = j) :
    (((List.enumFrom 0 freqs).filter (fun p => decide (p.2 > 0))).map
      (fun p => sym p.1)).Nodup := by
  have hidx : (((List.enumFrom 0 freqs).filter
      (fun p => decide (p.2 > 0))).map Prod.fst).Nodup := by
    refine List.Nodup.sublist
      (List.Sublist.map Prod.fst (List.filter_sublist _)) ?_
    rw [List.enumFrom_map_fst]
    exact List.nodup_range' 0 freqs.length
  have hmm : ∀ i ∈ ((List.enumFrom 0 freqs).filter
      (fun p => decide (p.2 > 0))).map Prod.fst, i < freqs.length := by
    intro i hi
    obtain ⟨p, hp, hpi⟩ := List.mem_map.mp hi
    have := List.fst_lt_add_of_mem_enumFrom (List.mem_of_mem_filter hp)
    omega
  have : ((List.enumFrom 0 freqs).filter (fun p => decide (p.2 > 0))).map
      (fun p => sym p.1) =
    (((List.enumFrom 0 freqs).filter (fun p => decide (p.2 > 0))).map
      Prod.fst).map sym := by
    rw [List.map_map]
    rfl
  rw [this]
  refine List.Nodup.map_on ?_ hidx
  intro i hi j hj heq
  exact hinj i (hmm i hi) j (hmm j hj) heq

theorem built_tree_syms_perm (f : List Node) (hne : f ≠ [])
    (hleaves : ∀ n ∈ f, ∃ fr c, n = Node.mk fr (some c) none none)
    (r : Node) (hr : huffman f = some r) :
    List.Perm r.leafSyms (f.flatMap Node.leafSyms) := by
  obtain ⟨r2, hsome2, _, _, _, _, _, hsyms⟩ :=
    tree_from_leaf_forest f hleaves hne
  rw [hr] at hsome2
  have : r2 = r := by
    injection hsome2 with hh
    exact hh.symm
  subst this
  rw [multiset_sum_flat] at hsyms
  exact Multiset.coe_eq_coe.mp hsyms

theorem huffman_tree_syms_nodup (freqs : List Nat) (hlen : freqs.length ≤ 256)
    (r : Node) (hr : huffman (create_forest freqs) = some r) :
    r.leafSyms.Nodup := by
  have hne : create_forest freqs ≠ [] := by
    intro he
    rw [he] at hr
    exact Option.noConfusion hr
  have hperm := built_tree_syms_perm (create_forest freqs) hne
    (create_forest_leaves freqs) r hr
  rw [hperm.nodup_iff]
  rw [show (create_forest freqs).flatMap Node.leafSyms =
    ((List.enumFrom 0 freqs).filter (fun p => decide (p.2 > 0))).map
      (fun p => Char.ofNat p.1) from by
        simp only [create_forest, List.enum]
        exact enumFrom_filterMap_flatMap Char.ofNat freqs 0]
  refine forest_syms_nodup Char.ofNat freqs ?_
  intro i hi j hj heq
  have hi2 : (Char.ofNat i).toNat = i := char_toNat_ofNat i (by omega)
  have hj2 : (Char.ofNat j).toNat = j := char_toNat_ofNat j (by omega)
  rw [heq] at hi2
  omega

theorem greedy_tree_syms_nodup (freqs : List Nat) (hlen : freqs.length ≤ 27)
    (r : Node) (hr : build_huffman_tree freqs = some r) :
    r.leafSyms.Nodup := by
  rw [build_huffman_tree_eq_huffman] at hr
  have hne : initialize_forest freqs ≠ [] := by
    intro he
    rw [he] at hr
    exact Option.noConfusion hr
  have hperm := built_tree_syms_perm (initialize_forest freqs) hne
    (initialize_forest_leaves freqs) r hr
  rw [hperm.nodup_iff]
  rw [show (initialize_forest freqs).flatMap Node.leafSyms =
    ((List.enumFrom 0 freqs).filter (fun p => decide (p.2 > 0))).map
      (fun p => if p.1 == 26 then ' ' else Char.ofNat (p.1 + 65)) from by
        simp only [initialize_forest, List.enum]
        exact enumFrom_filterMap_flatMap
          (fun i => if i == 26 then ' ' else Char.ofNat (i + 65)) freqs 0]
  refine forest_syms_nodup
    (fun i => if i == 26 then ' ' else Char.ofNat (i + 65)) freqs ?_
  intro i hi j hj heq
  have hspace : (' ' : Char).toNat = 32 := rfl
  simp only [beq_iff_eq] at heq
  split_ifs at heq with h1 h2 h2
  · omega
  · have hj2 : (Char.ofNat (j + 65)).toNat = j + 65 :=
      char_toNat_ofNat _ (by omega)
    rw [← heq, hspace] at hj2
    omega
  · have hi2 : (Char.ofNat (i + 65)).toNat = i + 65 :=
      char_toNat_ofNat _ (by omega)
    rw [heq, hspace] at hi2
    omega
  · have hi2 : (Char.ofNat (i + 65)).toNat = i + 65 :=
      char_toNat_ofNat _ (by omega)
    have hj2 : (Char.ofNat (j + 65)).toNat = j + 65 :=
      char_toNat_ofNat _ (by omega)
    rw [heq] at hi2
    omega

/-! Lookup structure of the 27-entry Greedy table. -/

theorem greedy_symbol_index (i : Nat) (h : i < 27) :
    Greedy.symbol_index (if i == 26 then ' ' else Char.ofNat (i + 65)) = i := by
  by_cases hc : i = 26
  · subst hc
    rfl
  · rw [if_neg (by simpa using hc)]
    unfold Greedy.symbol_index
    have ht : (Char.ofNat (i + 65)).toNat = i + 65 :=
      char_toNat_ofNat _ (by omega)
    rw [if_neg ?_]
    · omega
    · intro he
      rw [he] at ht
      have : (' ' : Char).toNat = 32 := rfl
      omega

theorem replicate_getD (n : Nat) (i : Nat) :
    (List.replicate n ([] : Code)).getD i [] = [] := by
  rw [List.getD_eq_getElem?_getD]
  rcases Nat.lt_or_ge i n with h | h
  · rw [List.getElem?_eq_getElem (by simpa using h)]
    simp
  · rw [List.getElem?_eq_none (by simpa using h)]
    rfl

theorem foldl_set_getD_of_not_mem (idx : Char → Nat) :
    ∀ (entries : List (Char × Code)) (table : List Code) (i : Nat) (d : Code),
      (∀ p ∈ entries, idx p.1 ≠ i) →
      (entries.foldl (fun tb p => tb.set (idx p.1) p.2) table).getD i d =
        table.getD i d := by
  intro entries
  induction entries with
  | nil => intro table i d _; rfl
  | cons q rest ih =>
    intro table i d h
    simp only [List.foldl_cons]
    rw [ih _ i d (fun p hp => h p (List.mem_cons_of_mem q hp))]
    rw [List.getD_eq_getElem?_getD,
      List.getElem?_set_ne (h q (List.mem_cons_self q rest)),
      ← List.getD_eq_getElem?_getD]

theorem foldl_set_getD_mem (idx : Char → Nat) :
    ∀ (entries : List (Char × Code)) (table : List Code) (d : Code)
      (p : Char × Code), p ∈ entries →
      (entries.map (fun q => idx q.1)).Nodup →
      idx p.1 < table.length →
      (entries.foldl (fun tb p => tb.set (idx p.1) p.2) table).getD
        (idx p.1) d = p.2 := by
  intro entries
  induction entries with
  | nil => intro table d p hp; exact absurd hp (List.not_mem_nil p)
  | cons q rest ih =>
    intro table d p hp hnd hlt
    simp only [List.map_cons, List.nodup_cons] at hnd
    simp only [List.foldl_cons]
    rcases List.mem_cons.mp hp with hq | hrest
    · subst hq
      rw [foldl_set_getD_of_not_mem idx rest _ _ _ ?_]
      · rw [List.getD_eq_getElem?_getD, List.getElem?_set_self',
          List.getElem?_eq_getElem (by simpa using hlt)]
        rfl
      · intro w hw he
        exact hnd.1 (by rw [← he]; exact List.mem_map_of_mem _ hw)
    · exact ih (table.set (idx q.1) q.2) d p hrest hnd.2
        (by rw [List.length_set]; exact hlt)

theorem huffman_proper (f : List Node)
    (hleaves : ∀ n ∈ f, ∃ fr c, n = Node.mk fr (some c) none none)
    (r : Node) (hr : huffman f = some r) : ProperTree r := by
  have hne : f ≠ [] := by
    intro he
    rw [he] at hr
    exact Option.noConfusion hr
  obtain ⟨r2, hsome2, hp, _⟩ := tree_from_leaf_forest f hleaves hne
  rw [hr] at hsome2
  have : r2 = r := by
    injection hsome2 with hh
    exact hh.symm
  subst this
  exact hp

theorem greedy_tree_syms_form (freqs : List Nat) (hlen : freqs.length ≤ 27)
    (r : Node) (hr : build_huffman_tree freqs = some r) :
    ∀ s ∈ r.leafSyms, ∃ i, i < 27 ∧
      s = (if i == 26 then ' ' else Char.ofNat (i + 65)) := by
  rw [build_huffman_tree_eq_huffman] at hr
  have hne : initialize_forest freqs ≠ [] := by
    intro he
    rw [he] at hr
    exact Option.noConfusion hr
  have hperm := built_tree_syms_perm (initialize_forest freqs) hne
    (initialize_forest_leaves freqs) r hr
  intro s hs
  have hs2 : s ∈ (initialize_forest freqs).flatMap Node.leafSyms :=
    hperm.mem_iff.mp hs
  rw [show (initialize_forest freqs).flatMap Node.leafSyms =
    ((List.enumFrom 0 freqs).filter (fun p => decide (p.2 > 0))).map
      (fun p => if p.1 == 26 then ' ' else Char.ofNat (p.1 + 65)) from by
        simp only [initialize_forest, List.enum]
        exact enumFrom_filterMap_flatMap
          (fun i => if i == 26 then ' ' else Char.ofNat (i + 65)) freqs 0]
    at hs2
  obtain ⟨p, hp, hps⟩ := List.mem_map.mp hs2
  have := List.fst_lt_add_of_mem_enumFrom (List.mem_of_mem_filter hp)
  exact ⟨p.1, by omega, hps.symm⟩

/-- C2: for a code table derived by build_encoding_table from a built
Huffman tree with at least 2 leaves, the codes of distinct symbols are
non-empty, pairwise distinct, and neither is a prefix of the other — both
for the dict table of src/Huffman.py and for the 27-entry array table of
src/Greedy_Alg.py (where a symbol is present exactly when its entry is a
non-empty string). -/
theorem claim_C2_table_prefix_free
    (freqs : List Nat) (t : Node) (hlen : freqs.length ≤ 256)
    (ht : huffman (create_forest freqs) = some t) (h2 : 2 ≤ t.countLeaves)
    (gfreqs : List Nat) (gt : Node) (ghlen : gfreqs.length ≤ 27)
    (hgt : build_huffman_tree gfreqs = some gt)
    (gh2 : 2 ≤ gt.countLeaves) :
    (∀ s1 c1 s2 c2, (s1, c1) ∈ Huffman.build_encoding_table (some t) →
      (s2, c2) ∈ Huffman.build_encoding_table (some t) → s1 ≠ s2 →
      c1 ≠ [] ∧ c2 ≠ [] ∧ c1 ≠ c2 ∧ ¬ (c1 <+: c2) ∧ ¬ (c2 <+: c1)) ∧
    (∀ i j, i < 27 → j < 27 → i ≠ j →
      (Greedy.build_encoding_table (some gt)).getD i [] ≠ [] →
      (Greedy.build_encoding_table (some gt)).getD j [] ≠ [] →
      (Greedy.build_encoding_table (some gt)).getD i [] ≠
        (Greedy.build_encoding_table (some gt)).getD j [] ∧
      ¬ ((Greedy.build_encoding_table (some gt)).getD i [] <+:
         (Greedy.build_encoding_table (some gt)).getD j []) ∧
      ¬ ((Greedy.build_encoding_table (some gt)).getD j [] <+:
         (Greedy.build_encoding_table (some gt)).getD i [])) := by
  have hsymm : Symmetric (fun p q : Char × Code =>
      ¬ (p.2 <+: q.2) ∧ ¬ (q.2 <+: p.2)) := fun p q h => ⟨h.2, h.1⟩
  constructor
  · intro s1 c1 s2 c2 h1 hh2 hne12
    have hnd := huffman_tree_syms_nodup freqs hlen t ht
    rw [build_encoding_table_eq_leafCodes t hnd] at h1 hh2
    have hproper : ProperTree t :=
      huffman_proper (create_forest freqs) (create_forest_leaves freqs) t ht
    obtain ⟨f0, a, b, hteq⟩ := internal_of_two_leaves t hproper h2
    have hc1 : c1 ≠ [] := by
      have := leafCodes_ne_nil_of_internal f0 (some a) (some b) (s1, c1)
        (by rw [← hteq]; exact h1)
      exact this
    have hc2 : c2 ≠ [] := by
      have := leafCodes_ne_nil_of_internal f0 (some a) (some b) (s2, c2)
        (by rw [← hteq]; exact hh2)
      exact this
    have hpq : ((s1, c1) : Char × Code) ≠ (s2, c2) := by
      intro he
      exact hne12 (congrArg Prod.fst he)
    have hR := (leafCodes_pairwise t []).forall hsymm h1 hh2 hpq
    exact ⟨hc1, hc2,
      fun he => hR.1 (by rw [he]),
      hR.1, hR.2⟩
  · intro i j hi hj hij hgi hgj
    have gnd := greedy_tree_syms_nodup gfreqs ghlen gt hgt
    have gform := greedy_tree_syms_form gfreqs ghlen gt hgt
    have hproper : ProperTree gt := by
      rw [build_huffman_tree_eq_huffman] at hgt
      exact huffman_proper (initialize_forest gfreqs)
        (initialize_forest_leaves gfreqs) gt hgt
    obtain ⟨f0, a, b, hteq⟩ := internal_of_two_leaves gt hproper gh2
    have htbl : Greedy.build_encoding_table (some gt) =
        (leafCodes gt []).foldl
          (fun tb p => tb.set (Greedy.symbol_index p.1) p.2)
          (List.replicate 27 []) :=
      traverseG_eq_foldl gt [] (List.replicate 27 [])
    have hsym_mem : ∀ p : Char × Code, p ∈ leafCodes gt [] →
        p.1 ∈ gt.leafSyms := by
      intro p hp
      rw [← leafCodes_map_fst gt []]
      exact List.mem_map_of_mem Prod.fst hp
    have hidx_lt : ∀ p : Char × Code, p ∈ leafCodes gt [] →
        Greedy.symbol_index p.1 < 27 := by
      intro p hp
      obtain ⟨i0, hi0, hform⟩ := gform p.1 (hsym_mem p hp)
      rw [hform, greedy_symbol_index i0 hi0]
      exact hi0
    have hidx_nodup : ((leafCodes gt []).map
        (fun q => Greedy.symbol_index q.1)).Nodup := by
      have : (leafCodes gt []).map (fun q => Greedy.symbol_index q.1) =
          gt.leafSyms.map Greedy.symbol_index := by
        rw [← leafCodes_map_fst gt [], List.map_map]
        rfl
      rw [this]
      refine List.Nodup.map_on ?_ gnd
      intro x hx y hy hxy
      obtain ⟨ix, hix, hfx⟩ := gform x hx
      obtain ⟨iy, hiy, hfy⟩ := gform y hy
      rw [hfx, greedy_symbol_index ix hix] at hxy
      rw [hfy, greedy_symbol_index iy hiy] at hxy
      rw [hfx, hfy, hxy]
    have hentry : ∀ k, (Greedy.build_encoding_table (some gt)).getD k [] ≠ [] →
        ∃ p, p ∈ leafCodes gt [] ∧ Greedy.symbol_index p.1 = k ∧
          (Greedy.build_encoding_table (some gt)).getD k [] = p.2 := by
      intro k hk
      by_cases hex : ∃ p, p ∈ leafCodes gt [] ∧ Greedy.symbol_index p.1 = k
      · obtain ⟨p, hp, hpk⟩ := hex
        refine ⟨p, hp, hpk, ?_⟩
        rw [htbl, ← hpk]
        exact foldl_set_getD_mem Greedy.symbol_index (leafCodes gt [])
          (List.replicate 27 []) [] p hp hidx_nodup
          (by rw [List.length_replicate]; exact hidx_lt p hp)
      · exfalso
        apply hk
        rw [htbl, foldl_set_getD_of_not_mem Greedy.symbol_index _ _ _ _
          (fun p hp he => hex ⟨p, hp, he⟩), replicate_getD]
    obtain ⟨p, hp, hpk, hpv⟩ := hentry i hgi
    obtain ⟨q, hq, hqk, hqv⟩ := hentry j hgj
    have hpq : p ≠ q := by
      intro he
      rw [he, hqk] at hpk
      exact hij hpk.symm
    have hR := (leafCodes_pairwise gt []).forall hsymm hp hq hpq
    rw [hpv, hqv]
    exact ⟨fun he => hR.1 (by rw [he]), hR.1, hR.2⟩

set_option maxRecDepth 4000 in
/-- Witness for C2 at frequencies A:1, B:2 for both tables. -/
theorem claim_C2_witness :
    (∀ s1 c1 s2 c2, (s1, c1) ∈ Huffman.build_encoding_table (some treeAB) →
      (s2, c2) ∈ Huffman.build_encoding_table (some treeAB) → s1 ≠ s2 →
      c1 ≠ [] ∧ c2 ≠ [] ∧ c1 ≠ c2 ∧ ¬ (c1 <+: c2) ∧ ¬ (c2 <+: c1)) ∧
    (∀ i j, i < 27 → j < 27 → i ≠ j →
      (Greedy.build_encoding_table (some treeAB)).getD i [] ≠ [] →
      (Greedy.build_encoding_table (some treeAB)).getD j [] ≠ [] →
      (Greedy.build_encoding_table (some treeAB)).getD i [] ≠
        (Greedy.build_encoding_table (some treeAB)).getD j [] ∧
      ¬ ((Greedy.build_encoding_table (some treeAB)).getD i [] <+:
         (Greedy.build_encoding_table (some treeAB)).getD j []) ∧
      ¬ ((Greedy.build_encoding_table (some treeAB)).getD j [] <+:
         (Greedy.build_encoding_table (some treeAB)).getD i [])) :=
  claim_C2_table_prefix_free freqsAB treeAB (by decide) huffman_create_AB
    (by decide) [1, 2] treeAB (by decide) build_huffman_tree_AB (by decide)

/-! Lookup lemmas for dictionaries and the reverse table. -/

theorem find?_map_update {α β : Type} [DecidableEq α] (k k2 : α) (v : β)
    (hk : k2 ≠ k) : ∀ (d : List (α × β)),
    ((d.map (fun p => if p.1 = k then (k, v) else p)).find?
      (fun p => decide (p.1 = k2))) = d.find? (fun p => decide (p.1 = k2)) := by
  intro d
  induction d with
  | nil => rfl
  | cons q rest ih =>
    rw [List.map_cons]
    by_cases hq : q.1 = k
    · rw [show (if q.1 = k then (k, v) else q) = (k, v) from if_pos hq]
      rw [List.find?_cons_of_neg _ (by
        simp only [decide_eq_true_eq]
        exact fun he => hk he.symm)]
      rw [List.find?_cons_of_neg _ (by
        simp only [decide_eq_true_eq, hq]
        exact fun he => hk he.symm)]
      exact ih
    · rw [show (if q.1 = k then (k, v) else q) = q from if_neg hq]
      by_cases ht : q.1 = k2
      · rw [List.find?_cons_of_pos _ (by simpa using ht),
          List.find?_cons_of_pos _ (by simpa using ht)]
      · rw [List.find?_cons_of_neg _ (by simpa using ht),
          List.find?_cons_of_neg _ (by simpa using ht)]
        exact ih

theorem dictGet_dictSet_ne {α β : Type} [DecidableEq α]
    (d : List (α × β)) (k k2 : α) (v : β) (h : k2 ≠ k) :
    dictGet (dictSet d k v) k2 = dictGet d k2 := by
  unfold dictSet dictGet
  by_cases hmem : d.any (fun p => p.1 = k)
  · rw [if_pos hmem, find?_map_update k k2 v h d]
  · rw [if_neg hmem, List.find?_append]
    rw [show List.find? (fun p => decide (p.1 = k2)) [(k, v)] = none from by
      rw [List.find?_cons_of_neg _ (by
        simp only [decide_eq_true_eq]
        exact fun he => h he.symm)]
      rfl]
    rw [Option.or_none]

theorem dictGet_dictSet_self {α β : Type} [DecidableEq α]
    (d : List (α × β)) (k : α) (v : β) :
    dictGet (dictSet d k v) k = some v := by
  unfold dictSet dictGet
  by_cases hmem : d.any (fun p => p.1 = k)
  · rw [if_pos hmem]
    have hex : ∃ p ∈ d, p.1 = k := by simpa using hmem
    clear hmem
    induction d with
    | nil => exact absurd hex (by simp)
    | cons q rest ih =>
      rw [List.map_cons]
      by_cases hq : q.1 = k
      · rw [show (if q.1 = k then (k, v) else q) = (k, v) from if_pos hq]
        rw [List.find?_cons_of_pos _ (by simp)]
        rfl
      · rw [show (if q.1 = k then (k, v) else q) = q from if_neg hq]
        rw [List.find?_cons_of_neg _ (by simpa using hq)]
        refine ih ?_
        obtain ⟨p, hp, hpk⟩ := hex
        rcases List.mem_cons.mp hp with hpq | hpr
        · exact absurd (by rw [← hpq]; exact hpk) hq
        · exact ⟨p, hpr, hpk⟩
  · rw [if_neg hmem, List.find?_append]
    have hno : List.find? (fun p => decide (p.1 = k)) d = none := by
      rw [List.find?_eq_none]
      intro p hp
      simp only [decide_eq_true_eq]
      intro he
      exact hmem (by
        simp only [List.any_eq_true, decide_eq_true_eq]
        exact ⟨p, hp, he⟩)
    rw [hno, Option.none_or, List.find?_cons_of_pos _ (by simp)]
    rfl

theorem reverse_fold_preserve (items : List (Char × Code)) :
    ∀ (acc : List (Code × Char)) (w : Code),
      (∀ p ∈ items, p.2 ≠ w) →
      dictGet (items.foldl (fun rt p => dictSet rt p.2 p.1) acc) w =
        dictGet acc w := by
  induction items with
  | nil => intro acc w _; rfl
  | cons q rest ih =>
    intro acc w hno
    simp only [List.foldl_cons]
    rw [ih (dictSet acc q.2 q.1) w
      (fun p hp => hno p (List.mem_cons_of_mem q hp))]
    exact dictGet_dictSet_ne acc q.2 w q.1
      (fun he => hno q (List.mem_cons_self q rest) he.symm)

theorem reverse_fold_lookup (items : List (Char × Code)) :
    ∀ (acc : List (Code × Char)) (s : Char) (cs : Code),
      (s, cs) ∈ items → (items.map Prod.snd).Nodup →
      dictGet (items.foldl (fun rt p => dictSet rt p.2 p.1) acc) cs =
        some s := by
  induction items with
  | nil => intro acc s cs hm; exact absurd hm (List.not_mem_nil _)
  | cons q rest ih =>
    intro acc s cs hm hnd
    simp only [List.map_cons, List.nodup_cons] at hnd
    simp only [List.foldl_cons]
    rcases List.mem_cons.mp hm with hq | hr
    · cases hq
      rw [reverse_fold_preserve rest _ cs ?_]
      · exact dictGet_dictSet_self acc cs s
      · intro p hp he
        have hmm2 : p.2 ∈ List.map Prod.snd rest :=
          List.mem_map_of_mem Prod.snd hp
        exact hnd.1 (he ▸ hmm2)
    · exact ih (dictSet acc q.2 q.1) s cs hr hnd.2

theorem reverse_fold_inv (items : List (Char × Code)) :
    ∀ (acc : List (Code × Char)) (w : Code) (s2 : Char),
      dictGet (items.foldl (fun rt p => dictSet rt p.2 p.1) acc) w = some s2 →
      dictGet acc w = some s2 ∨ (s2, w) ∈ items := by
  induction items with
  | nil => intro acc w s2 hg; exact Or.inl hg
  | cons q rest ih =>
    intro acc w s2 hg
    simp only [List.foldl_cons] at hg
    rcases ih (dictSet acc q.2 q.1) w s2 hg with hacc | hr
    · by_cases hw : w = q.2
      · subst hw
        rw [dictGet_dictSet_self] at hacc
        have hq1 : q.1 = s2 := by injection hacc
        refine Or.inr ?_
        rw [← hq1]
        exact List.mem_cons_self q rest
      · rw [dictGet_dictSet_ne acc q.2 w q.1 hw] at hacc
        exact Or.inl hacc
    · exact Or.inr (List.mem_cons_of_mem q hr)

theorem assoc_lookup (table : List (Char × Code)) :
    ∀ (c : Char) (cs : Code), (c, cs) ∈ table →
      (table.map Prod.fst).Nodup → dictGet table c = some cs := by
  induction table with
  | nil => intro c cs hm; exact absurd hm (List.not_mem_nil _)
  | cons q rest ih =>
    intro c cs hm hnd
    simp only [List.map_cons, List.nodup_cons] at hnd
    unfold dictGet
    rcases List.mem_cons.mp hm with hq | hr
    · cases hq
      rw [List.find?_cons_of_pos _ (by simp)]
      rfl
    · have hqc : q.1 ≠ c := by
        intro he
        exact hnd.1 (he ▸ List.mem_map_of_mem Prod.fst hr)
      rw [List.find?_cons_of_neg _ (by simpa using hqc)]
      exact ih c cs hr hnd.2

theorem table_codes_nodup (table : List (Char × Code))
    (hpw : List.Pairwise (fun p q : Char × Code =>
      ¬ (p.2 <+: q.2) ∧ ¬ (q.2 <+: p.2)) table) :
    (table.map Prod.snd).Nodup := by
  rw [List.Nodup, List.pairwise_map]
  refine hpw.imp ?_
  intro p q hR he
  exact hR.1 (he ▸ List.prefix_refl p.2)

/-! Behaviour of the table encoder and of the greedy table decoder. -/

theorem encode_ok_means (table : List (Char × Code)) :
    ∀ (msg : List Char) (bits : Code),
      Huffman.encode_with_table msg table = .ok bits →
      (∀ c ∈ msg, (dictGet table c).isSome) ∧
      bits = msg.flatMap (fun c => (dictGet table c).getD []) := by
  intro msg
  induction msg with
  | nil =>
    intro bits hb
    refine ⟨by simp, ?_⟩
    simp only [Huffman.encode_with_table] at hb
    injection hb with hh
    exact hh.symm
  | cons c cs ih =>
    intro bits hb
    simp only [Huffman.encode_with_table] at hb
    match hg : dictGet table c with
    | none =>
      rw [hg] at hb
      exact Except.noConfusion hb
    | some code =>
      rw [hg] at hb
      match he : Huffman.encode_with_table cs table with
      | .error e =>
        rw [he] at hb
        exact Except.noConfusion hb
      | .ok rest =>
        rw [he] at hb
        obtain ⟨hall, hrest⟩ := ih rest he
        refine ⟨?_, ?_⟩
        · intro c2 hc2
          rcases List.mem_cons.mp hc2 with hc2 | hc2
          · subst hc2
            rw [hg]
            rfl
          · exact hall c2 hc2
        · have hb2 : code ++ rest = bits := by injection hb with hh
          rw [← hb2, hrest, List.flatMap_cons, hg]
          rfl

theorem decode_loop_scan (rt : List (Code × Char)) (cs : Code) (s : Char)
    (hlook : dictGet rt cs = some s)
    (hpre : ∀ w, w <+: cs → w ≠ cs → w ≠ [] → dictGet rt w = none) :
    ∀ (v u : Code), u ++ v = cs → v ≠ [] →
      ∀ (rest : Code) (dec : List Char),
        Huffman.decode_loop rt (v ++ rest) u dec =
          Huffman.decode_loop rt rest [] (dec ++ [s]) := by
  intro v
  induction v with
  | nil => intro u _ hv; exact absurd rfl hv
  | cons b v2 ih =>
    intro u huv _ rest dec
    simp only [List.cons_append, Huffman.decode_loop]
    cases v2 with
    | nil =>
      have hu : u ++ [b] = cs := by simpa using huv
      rw [hu, hlook]
      rfl
    | cons b2 v3 =>
      have hub : (u ++ [b]) <+: cs := by
        refine ⟨b2 :: v3, ?_⟩
        rw [← huv]
        simp
      have hne : u ++ [b] ≠ cs := by
        intro he
        have hl1 : (u ++ [b]).length = cs.length := by rw [he]
        have hl2 : (u ++ (b :: b2 :: v3)).length = cs.length := by rw [huv]
        simp only [List.length_append, List.length_cons,
          List.length_nil] at hl1 hl2
        omega
      rw [hpre (u ++ [b]) hub hne (by simp)]
      exact ih (u ++ [b]) (by simpa using huv) (by simp) rest dec

theorem decode_loop_tail (rt : List (Code × Char)) :
    ∀ (v u : Code) (dec : List Char),
      (∀ w, w <+: v → w ≠ [] → dictGet rt (u ++ w) = none) →
      Huffman.decode_loop rt v u dec = dec := by
  intro v
  induction v with
  | nil => intro u dec _; rfl
  | cons b v2 ih =>
    intro u dec hno
    simp only [Huffman.decode_loop]
    rw [hno [b] (by simp) (by simp)]
    refine ih (u ++ [b]) dec ?_
    intro w hw hwne
    rw [List.append_assoc]
    exact hno (b :: w) (by simpa using hw) (by simp)

theorem decode_loop_flatMap (rt : List (Code × Char))
    (table : List (Char × Code)) :
    ∀ (msg : List Char) (dec : List Char) (tail : Code),
      (∀ c ∈ msg, ∃ cs, dictGet table c = some cs ∧ cs ≠ [] ∧
        dictGet rt cs = some c ∧
        (∀ w, w <+: cs → w ≠ cs → w ≠ [] → dictGet rt w = none)) →
      Huffman.decode_loop rt
        ((msg.flatMap (fun c => (dictGet table c).getD [])) ++ tail) [] dec =
        Huffman.decode_loop rt tail [] (dec ++ msg) := by
  intro msg
  induction msg with
  | nil =>
    intro dec tail _
    simp
  | cons c msg2 ih =>
    intro dec tail hgood
    obtain ⟨cs, hlook, hne, hrt, hpre⟩ := hgood c (List.mem_cons_self c msg2)
    rw [List.flatMap_cons, hlook]
    have : ((Option.some cs).getD [] ++
        msg2.flatMap (fun c => (dictGet table c).getD [])) ++ tail =
        cs ++ (msg2.flatMap (fun c => (dictGet table c).getD []) ++ tail) := by
      simp [List.append_assoc]
    rw [this]
    rw [decode_loop_scan rt cs c hrt hpre cs [] rfl hne _ dec]
    rw [ih (dec ++ [c]) tail
      (fun c2 hc2 => hgood c2 (List.mem_cons_of_mem c hc2))]
    rw [List.append_assoc]
    rfl

theorem dictGet_some_mem {α β : Type} [DecidableEq α] (d : List (α × β))
    (k : α) (v : β) (h : dictGet d k = some v) : (k, v) ∈ d := by
  unfold dictGet at h
  match hf : d.find? (fun p => decide (p.1 = k)) with
  | none =>
    rw [hf] at h
    exact Option.noConfusion h
  | some p =>
    rw [hf] at h
    have hp2 : p.2 = v := by injection h
    have hpk : p.1 = k := by simpa using List.find?_some hf
    have hmem := List.mem_of_find?_eq_some hf
    rw [← hpk, ← hp2]
    exact hmem

/-- Every code looked up in a table built from a >= 2-leaf built tree is
non-empty, is inverted by the reverse table, and no proper prefix of it is
a key of the reverse table. -/
theorem built_table_good (freqs : List Nat) (t : Node)
    (hlen : freqs.length ≤ 256)
    (ht : huffman (create_forest freqs) = some t) (h2 : 2 ≤ t.countLeaves) :
    ∀ (c : Char) (cs : Code),
      dictGet (Huffman.build_encoding_table (some t)) c = some cs →
      cs ≠ [] ∧
      dictGet (Huffman.build_reverse_table
        (Huffman.build_encoding_table (some t))) cs = some c ∧
      (∀ w, w <+: cs → w ≠ cs → w ≠ [] →
        dictGet (Huffman.build_reverse_table
          (Huffman.build_encoding_table (some t))) w = none) := by
  intro c cs hcs
  have hnd := huffman_tree_syms_nodup freqs hlen t ht
  have htab := build_encoding_table_eq_leafCodes t hnd
  have hproper : ProperTree t :=
    huffman_proper (create_forest freqs) (create_forest_leaves freqs) t ht
  obtain ⟨f0, a, b, hteq⟩ := internal_of_two_leaves t hproper h2
  have hmem : (c, cs) ∈ leafCodes t [] := by
    rw [← htab]
    exact dictGet_some_mem _ c cs hcs
  have hpw := leafCodes_pairwise t []
  have hcodes_nd := table_codes_nodup (leafCodes t []) hpw
  have hsymm : Symmetric (fun p q : Char × Code =>
      ¬ (p.2 <+: q.2) ∧ ¬ (q.2 <+: p.2)) := fun p q h => ⟨h.2, h.1⟩
  have hrev : Huffman.build_reverse_table
      (Huffman.build_encoding_table (some t)) =
      (leafCodes t []).foldl (fun rt p => dictSet rt p.2 p.1) [] := by
    rw [htab]
    rfl
  refine ⟨?_, ?_, ?_⟩
  · have := leafCodes_ne_nil_of_internal f0 (some a) (some b) (c, cs)
      (by rw [← hteq]; exact hmem)
    exact this
  · rw [hrev]
    exact reverse_fold_lookup (leafCodes t []) [] c cs hmem hcodes_nd
  · intro w hw hwne hwnil
    rw [hrev]
    match hg : dictGet ((leafCodes t []).foldl
        (fun rt p => dictSet rt p.2 p.1) []) w with
    | none => exact hg
    | some s2 =>
      exfalso
      rcases reverse_fold_inv (leafCodes t []) [] w s2 hg with hacc | hmem2
      · exact Option.noConfusion hacc
      · have hne2 : ((s2, w) : Char × Code) ≠ (c, cs) := by
          intro he
          exact hwne (congrArg Prod.snd he)
        have hR := hpw.forall hsymm hmem2 hmem hne2
        exact hR.1 hw

/-- C3 amended: on a bitstring that ends mid-code neither decoder raises a
TruncatedInput condition.  decode_with_table silently drops the trailing
incomplete bits: for a correct encoding of msg ++ [c] with its trailing bit
removed it returns exactly msg, the partially-correct message.  (The
Greedy decode raises TypeError on any input that decodes a symbol —
truncated or not — because line 128 appends the bound method get_symbol;
see the counterexample theorem.) -/
theorem claim_C3_truncated_returns_partial (freqs : List Nat) (t : Node)
    (hlen : freqs.length ≤ 256)
    (ht : huffman (create_forest freqs) = some t) (h2 : 2 ≤ t.countLeaves)
    (msg : List Char) (c : Char) (bits : Code)
    (henc : Huffman.encode_with_table (msg ++ [c])
      (Huffman.build_encoding_table (some t)) = .ok bits) :
    Huffman.decode_with_table bits.dropLast
      (Huffman.build_reverse_table (Huffman.build_encoding_table (some t))) =
      msg := by
  obtain ⟨hall, hbits⟩ := encode_ok_means _ (msg ++ [c]) bits henc
  have hc := hall c (by simp)
  obtain ⟨cs, hcs⟩ := Option.isSome_iff_exists.mp hc
  obtain ⟨hcsne, hrt, hpre⟩ := built_table_good freqs t hlen ht h2 c cs hcs
  have hbits2 : bits = msg.flatMap
      (fun c2 => (dictGet (Huffman.build_encoding_table (some t)) c2).getD [])
      ++ cs := by
    rw [hbits, List.flatMap_append, List.flatMap_cons, List.flatMap_nil,
      List.append_nil, hcs]
    rfl
  have hdrop : bits.dropLast = msg.flatMap
      (fun c2 => (dictGet (Huffman.build_encoding_table (some t)) c2).getD [])
      ++ cs.dropLast := by
    rw [hbits2]
    exact List.dropLast_append_of_ne_nil _ hcsne
  have hcond : ∀ c2 ∈ msg, ∃ cs2,
      dictGet (Huffman.build_encoding_table (some t)) c2 = some cs2 ∧
      cs2 ≠ [] ∧
      dictGet (Huffman.build_reverse_table
        (Huffman.build_encoding_table (some t))) cs2 = some c2 ∧
      (∀ w, w <+: cs2 → w ≠ cs2 → w ≠ [] →
        dictGet (Huffman.build_reverse_table
          (Huffman.build_encoding_table (some t))) w = none) := by
    intro c2 hc2
    have hc2s := hall c2 (List.mem_append_left [c] hc2)
    obtain ⟨cs2, hcs2⟩ := Option.isSome_iff_exists.mp hc2s
    obtain ⟨hcs2ne, hrt2, hpre2⟩ :=
      built_table_good freqs t hlen ht h2 c2 cs2 hcs2
    exact ⟨cs2, hcs2, hcs2ne, hrt2, hpre2⟩
  have htail : ∀ w, w <+: cs.dropLast → w ≠ [] →
      dictGet (Huffman.build_reverse_table
        (Huffman.build_encoding_table (some t))) ([] ++ w) = none := by
    intro w hw hwne
    have hwcs : w <+: cs :=
      hw.trans ⟨[cs.getLast hcsne], List.dropLast_concat_getLast hcsne⟩
    have hwne2 : w ≠ cs := by
      intro he
      have hl1 := hw.length_le
      have hl2 := List.length_dropLast cs
      have hl3 : 0 < cs.length := List.length_pos.mpr hcsne
      rw [he] at hl1
      omega
    have := hpre w hwcs hwne2 hwne
    simpa using this
  show Huffman.decode_loop _ bits.dropLast [] [] = msg
  rw [hdrop]
  rw [decode_loop_flatMap
    (Huffman.build_reverse_table (Huffman.build_encoding_table (some t)))
    (Huffman.build_encoding_table (some t)) msg [] cs.dropLast hcond,
    List.nil_append]
  exact decode_loop_tail _ cs.dropLast [] msg htail

set_option maxRecDepth 4000 in
/-- Witness for the C3 amended theorem: encoding "AB" with the A:1, B:2
table gives "01"; dropping the trailing bit and decoding returns "A". -/
theorem claim_C3_witness :
    Huffman.decode_with_table (['0', '1'] : Code).dropLast
      (Huffman.build_reverse_table
        (Huffman.build_encoding_table (some treeAB))) = ['A'] :=
  claim_C3_truncated_returns_partial freqsAB treeAB (by decide)
    huffman_create_AB (by decide) ['A'] 'B' ['0', '1'] rfl

/-- Counterexample for C3 as stated: on the truncated encoding "0" of "AB"
the table decoder returns the partially-correct message "A" instead of
failing, and the Greedy decode raises TypeError on the truncated input and
on the complete input alike (never a TruncatedInput condition). -/
theorem claim_C3_counterexample :
    Huffman.decode_with_table ['0']
      (Huffman.build_reverse_table
        (Huffman.build_encoding_table (some treeAB))) = ['A'] ∧
    (['A'] : List Char) ≠ [] ∧
    Greedy.decode ['0'] (some treeAB) = .error .typeError ∧
    Greedy.decode ['0', '1'] (some treeAB) = .error .typeError :=
  ⟨rfl, by decide, rfl, rfl⟩

/-! Evaluation and degenerate-alphabet facts used by C1, C4, C5, C6, C7. -/

set_option maxRecDepth 4000 in
theorem huffman_create_A4 : huffman (create_forest fA256) = some leafA4 := by
  rw [show create_forest fA256 = [leafA4] from rfl]
  simp only [huffman]
  norm_num
  rw [huffman_loop]
  norm_num

theorem encode_single_symbol (c : Char) : ∀ (k : Nat),
    Huffman.encode_with_table (List.replicate k c) [(c, [])] = .ok [] := by
  intro k
  induction k with
  | zero => rfl
  | succ k2 ih =>
    show Huffman.encode_with_table (c :: List.replicate k2 c) [(c, [])] =
      .ok []
    simp only [Huffman.encode_with_table]
    rw [show dictGet [(c, ([] : Code))] c = some [] from by
      unfold dictGet
      rw [List.find?_cons_of_pos _ (by simp)]
      rfl]
    rw [ih]
    rfl

theorem set_replicate_nil : ∀ (n i : Nat),
    (List.replicate n ([] : Code)).set i [] = List.replicate n [] := by
  intro n
  induction n with
  | zero => intro i; rfl
  | succ n2 ih =>
    intro i
    cases i with
    | zero => rfl
    | succ i2 =>
      show ([] : Code) :: (List.replicate n2 []).set i2 [] =
        [] :: List.replicate n2 []
      rw [ih i2]

/-- Leaves of initialize_forest carry the 27-symbol-alphabet symbol of
their index: space for 26, chr(index + 65) otherwise. -/
theorem initialize_forest_leaves_form (freqs : List Nat) :
    ∀ n ∈ initialize_forest freqs, ∃ fr i, i < freqs.length ∧
      n = Node.mk fr (some (if i == 26 then ' ' else Char.ofNat (i + 65)))
        none none := by
  intro n hn
  obtain ⟨p, hpmem, hp⟩ := List.mem_filterMap.mp hn
  by_cases hc : p.2 > 0
  · rw [if_pos hc] at hp
    have hlt := List.fst_lt_of_mem_enum hpmem
    exact ⟨p.2, p.1, hlt, (Option.some.injEq _ _ ▸ hp).symm⟩
  · rw [if_neg hc] at hp
    exact absurd hp (by simp)

/-- C4 amended: for a FrequencyMap with exactly one positive entry, each
pipeline's own builder returns the single Leaf for that symbol, but the
traversal assigns it the empty accumulated code "" (not the single bit
"0"): Huffman.py's dict table maps the symbol to "", a single-symbol
message encodes to the empty bitstring and decoding the empty bitstring
returns the empty message, so the round trip does not preserve a non-empty
single-symbol message; and Greedy_Alg.py's 27-entry table — built from its
own 27-symbol FrequencyMap, so the leaf symbol is A-Z or space and the
written index is in range — is left indistinguishable from the all-empty
initial table (the leaf's entry is set to ""). -/
theorem claim_C4_single_symbol_empty_code :
    (∀ freqs : List Nat, freqs.countP (fun x => decide (0 < x)) = 1 →
      ∃ fr c,
        huffman (create_forest freqs) =
          some (Node.mk fr (some c) none none) ∧
        Huffman.build_encoding_table (some (Node.mk fr (some c) none none)) =
          [(c, [])] ∧
        (∀ k, Huffman.encode_with_table (List.replicate k c) [(c, [])] =
          .ok []) ∧
        Huffman.decode_with_table []
          (Huffman.build_reverse_table [(c, [])]) = []) ∧
    (∀ gfreqs : List Nat, gfreqs.length ≤ 27 →
      gfreqs.countP (fun x => decide (0 < x)) = 1 →
      ∃ fr c,
        build_huffman_tree gfreqs = some (Node.mk fr (some c) none none) ∧
        Greedy.symbol_index c < 27 ∧
        Greedy.build_encoding_table (some (Node.mk fr (some c) none none)) =
          List.replicate 27 []) := by
  constructor
  · intro freqs h1
    have hlen : (create_forest freqs).length = 1 := by
      rw [create_forest_length]
      exact h1
    obtain ⟨n, hn⟩ := List.length_eq_one.mp hlen
    obtain ⟨fr, c, hshape⟩ := create_forest_leaves freqs n
      (by rw [hn]; exact List.mem_singleton_self n)
    refine ⟨fr, c, ?_, ?_, encode_single_symbol c, rfl⟩
    · rw [hn, hshape]
      simp only [huffman]
      norm_num
      rw [huffman_loop]
      norm_num
    · show Huffman.traverse_node (Node.mk fr (some c) none none) [] [] =
        [(c, [])]
      rfl
  · intro gfreqs hglen h1
    have hflen : (initialize_forest gfreqs).length = 1 := by
      rw [initialize_forest_length]
      exact h1
    obtain ⟨n, hn⟩ := List.length_eq_one.mp hflen
    obtain ⟨fr, i, hilt, hshape⟩ := initialize_forest_leaves_form gfreqs n
      (by rw [hn]; exact List.mem_singleton_self n)
    have hi27 : i < 27 := by omega
    have hidx : Greedy.symbol_index
        (if i == 26 then ' ' else Char.ofNat (i + 65)) = i :=
      greedy_symbol_index i hi27
    refine ⟨fr, (if i == 26 then ' ' else Char.ofNat (i + 65)), ?_, ?_, ?_⟩
    · rw [build_huffman_tree_eq_huffman, hn, hshape]
      simp only [huffman]
      norm_num
      rw [huffman_loop]
      norm_num
    · rw [hidx]
      exact hi27
    · show Greedy.traverse_node
        (Node.mk fr (some (if i == 26 then ' ' else Char.ofNat (i + 65)))
          none none) [] (List.replicate 27 []) = List.replicate 27 []
      show (List.replicate 27 ([] : Code)).set
        (Greedy.symbol_index (if i == 26 then ' ' else Char.ofNat (i + 65)))
        [] = List.replicate 27 []
      exact set_replicate_nil 27 _

set_option maxRecDepth 4000 in
/-- Witness for the C4 amended theorem: the "AAAA" 256-entry frequency
list for the Huffman.py pipeline, and the frequency list [4] (one 'A')
for the Greedy pipeline. -/
theorem claim_C4_witness :
    (∃ fr c,
      huffman (create_forest fA256) = some (Node.mk fr (some c) none none) ∧
      Huffman.build_encoding_table (some (Node.mk fr (some c) none none)) =
        [(c, [])] ∧
      (∀ k, Huffman.encode_with_table (List.replicate k c) [(c, [])] =
        .ok []) ∧
      Huffman.decode_with_table []
        (Huffman.build_reverse_table [(c, [])]) = []) ∧
    (∃ fr c,
      build_huffman_tree [4] = some (Node.mk fr (some c) none none) ∧
      Greedy.symbol_index c < 27 ∧
      Greedy.build_encoding_table (some (Node.mk fr (some c) none none)) =
        List.replicate 27 []) :=
  ⟨claim_C4_single_symbol_empty_code.1 fA256 (by decide),
    claim_C4_single_symbol_empty_code.2 [4] (by decide) (by decide)⟩

set_option maxRecDepth 4000 in
/-- Counterexample for C4 as stated: for the "AAAA" frequencies the code of
'A' is the empty string, not "0", and "AAAA" encodes to the empty bitstring
which decodes to "", not back to "AAAA". -/
theorem claim_C4_counterexample :
    huffman (create_forest fA256) = some leafA4 ∧
    Huffman.build_encoding_table (some leafA4) = [('A', [])] ∧
    ([('A', ([] : Code))] ≠ [('A', ['0'])]) ∧
    Huffman.encode_with_table ['A', 'A', 'A', 'A'] [('A', [])] = .ok [] ∧
    Huffman.decode_with_table []
      (Huffman.build_reverse_table [('A', [])]) = [] ∧
    (([] : List Char) ≠ ['A', 'A', 'A', 'A']) :=
  ⟨huffman_create_A4, rfl, by decide, rfl, rfl, by decide⟩

/-- Counterexample for C6 as stated: build_encoding_table invoked on a
None root returns the empty dict rather than failing with an InvalidTree
condition (the function has no failure path). -/
theorem claim_C6_counterexample :
    Huffman.build_encoding_table none = ([] : List (Char × Code)) := rfl

/-- C6 amended: on a null tree both table builders return normally:
Huffman.py's build_encoding_table returns the empty dict and
Greedy_Alg.py's returns the 27-entry all-empty-string table; no InvalidTree
condition exists in the code. -/
theorem claim_C6_none_returns_empty_table :
    Huffman.build_encoding_table none = ([] : List (Char × Code)) ∧
    Greedy.build_encoding_table none = List.replicate 27 ([] : Code) :=
  ⟨rfl, rfl⟩

/-- C5 evaluation: the Greedy encoder raises TypeError on any non-space
character (it subscripts the function build_encoding_table, line 110) and
silently appends the empty entry for a space even when space is absent from
the table; the Huffman.py encoder concatenates codes in message order and
raises KeyError for a symbol absent from the table. -/
theorem claim_C5_encoder_behaviour :
    Greedy.encode ['A'] (Greedy.build_encoding_table (some treeAB)) =
      .error .typeError ∧
    Greedy.encode [' '] (Greedy.build_encoding_table (some treeAB)) =
      .ok [] ∧
    Huffman.encode_with_table ['A', 'B']
      (Huffman.build_encoding_table (some treeAB)) = .ok ['0', '1'] ∧
    Huffman.encode_with_table ['X']
      (Huffman.build_encoding_table (some treeAB)) = .error .keyError :=
  ⟨rfl, rfl, rfl, rfl⟩

/-- C1 evaluation: the Greedy pipeline crashes — encode raises TypeError on
any letter and decode raises TypeError after emitting any symbol — so its
round trip never returns the message; and even the working Huffman.py
pipeline maps the single-symbol message "AAAA" to the empty bitstring which
decodes to "", not "AAAA". -/
theorem claim_C1_roundtrip_failure :
    Greedy.encode ['A', 'B'] (Greedy.build_encoding_table (some treeAB)) =
      .error .typeError ∧
    Greedy.decode ['0', '1'] (some treeAB) = .error .typeError ∧
    huffman (create_forest fA256) = some leafA4 ∧
    Huffman.encode_with_table ['A', 'A', 'A', 'A']
      (Huffman.build_encoding_table (some leafA4)) = .ok [] ∧
    Huffman.decode_with_table []
      (Huffman.build_reverse_table
        (Huffman.build_encoding_table (some leafA4))) = [] ∧
    (([] : List Char) ≠ ['A', 'A', 'A', 'A']) :=
  ⟨rfl, rfl, huffman_create_A4, rfl, rfl, by decide⟩

/-- C7 evaluation: on the bitstring "0" with the A:1, B:2 tree the
reverse-table decoder returns "A" while the tree-walk Greedy decode raises
TypeError (line 128 appends the bound method get_symbol), so the two
decoders do not agree and do not fail together. -/
theorem claim_C7_decoder_disagreement :
    Greedy.decode ['0'] (some treeAB) = .error .typeError ∧
    Huffman.decode_with_table ['0']
      (Huffman.build_reverse_table
        (Huffman.build_encoding_table (some treeAB))) = ['A'] :=
  ⟨rfl, rfl⟩
